import Mathlib

/-!
Verification development for the procedural level generator of the `sese`
repository.  The generator pipeline lives in `src/level.rs`
(`LevelBuilder::build`), which drives the maze module declared as
`pub mod maze` in `src/main.rs`.  The maze module's source file is not part
of the excerpted sources, so its operations (`new_kruskal`, `reduce`,
`circle`, `fill_smallests`, `fill_dead_corridors`) are modelled from the
specification, as flagged in each doc comment; the pipeline order, the
player spawn computation and the `LevelBuilder` fields are embedded
directly from `src/level.rs`.

Conventions of the embedding:
* Cells are integer triples.  The spec addresses cells by signed
  coordinates in `[-h, h]^3`; the embedding uses the equivalent 0-based
  range `[0, s)` with `s = 2h+1` (`level.rs` passes `size = 2h+1`), so the
  lattice center is `(h, h, h)`.
* An edge is keyed by its lower endpoint and an axis (`Fin 3`); the edge
  `(c, d)` joins `c` and `c + delta d`.
* Randomness: `level.rs` obtains a thread-local rng; the spec's design
  notes direct reimplementations to pass an explicit random source, so the
  model threads an explicit `Rng` structure (sort keys for the edge
  shuffle, and a `[0,1)` draw per edge for the loop pass).
-/

namespace Sese

/-- A 3D integer lattice coordinate. -/
abbrev Vec3 := ℤ × ℤ × ℤ

/-- Unit offset along each of the three lattice axes (6-connectivity is
the two orientations of these three axes). -/
def delta : Fin 3 → Vec3
  | 0 => (1, 0, 0)
  | 1 => (0, 1, 0)
  | 2 => (0, 0, 1)

/-- `c` lies in the cubic lattice of side `s` (0-based coordinates). -/
def inLat (s : ℤ) (c : Vec3) : Bool :=
  decide (0 ≤ c.1 ∧ c.1 < s ∧ 0 ≤ c.2.1 ∧ c.2.1 < s ∧ 0 ≤ c.2.2 ∧ c.2.2 < s)

/-- Modelled from the spec: the `Maze` type of the maze module (not under
`src/`) owns the full set of cells and their edge states for a given
lattice size; cells may additionally be marked solid ("outside the final
shape but still addressable").  `edges c d = true` means the edge from `c`
to `c + delta d` is open (a passage). -/
structure Maze where
  size : ℤ
  edges : Vec3 → Fin 3 → Bool
  solid : Vec3 → Bool

/-- The edge keyed by `(c, d)` is open and joins two lattice cells. -/
def edgeOpenB (m : Maze) (c : Vec3) (d : Fin 3) : Bool :=
  m.edges c d && inLat m.size c && inLat m.size (c + delta d)

/-- Open-edge adjacency between two cells (either orientation). -/
def adjB (m : Maze) (x y : Vec3) : Bool :=
  decide (∃ d : Fin 3,
    (y = x + delta d ∧ edgeOpenB m x d = true) ∨
    (x = y + delta d ∧ edgeOpenB m y d = true))

/-- One step in the open-edge graph, as a proposition. -/
def Step (m : Maze) (x y : Vec3) : Prop := adjB m x y = true

/-- Connectivity in the open-edge graph: reflexive-transitive closure of
single steps. -/
def Connected (m : Maze) (x y : Vec3) : Prop :=
  Relation.ReflTransGen (Step m) x y

/-- Enumeration of the coordinates `0, 1, …, s-1`. -/
def coordList (s : ℤ) : List ℤ := (List.range s.toNat).map (fun (n : ℕ) => (n : ℤ))

/-- Enumeration of all cells of the cubic lattice of side `s`. -/
def cells (s : ℤ) : List Vec3 := (coordList s) ×ˢ ((coordList s) ×ˢ (coordList s))

/-- Number of open neighbors of a cell: its degree in the open-edge
graph.  In the lattice two distinct cells share at most one edge, so this
is the spec's "count of open edges" at the cell. -/
def degreeB (m : Maze) (c : Vec3) : ℕ :=
  ((cells m.size).filter (fun y => adjB m c y)).length

/-- All candidate edges of the lattice of side `s`: both endpoints in
range. -/
def allEdges (s : ℤ) : List (Vec3 × Fin 3) :=
  ((cells s) ×ˢ ([0, 1, 2] : List (Fin 3))).filter
    (fun e => inLat s (e.1 + delta e.2))

theorem mem_coordList {s x : ℤ} : x ∈ coordList s ↔ 0 ≤ x ∧ x < s := by
  unfold coordList
  rw [List.mem_map]
  constructor
  · rintro ⟨n, hn, rfl⟩
    rw [List.mem_range] at hn
    omega
  · rintro ⟨h0, hs⟩
    refine ⟨x.toNat, ?_, by omega⟩
    rw [List.mem_range]
    omega

theorem nodup_coordList {s : ℤ} : (coordList s).Nodup := by
  refine (List.nodup_range s.toNat).map ?_
  intro a b h
  simpa using h

theorem mem_cells {s : ℤ} {c : Vec3} : c ∈ cells s ↔ inLat s c = true := by
  obtain ⟨x, y, z⟩ := c
  simp only [cells, List.mem_product, mem_coordList, inLat, decide_eq_true_eq]
  tauto

theorem nodup_cells {s : ℤ} : (cells s).Nodup :=
  nodup_coordList.product (nodup_coordList.product nodup_coordList)

theorem mem_allEdges {s : ℤ} {e : Vec3 × Fin 3} :
    e ∈ allEdges s ↔ inLat s e.1 = true ∧ inLat s (e.1 + delta e.2) = true := by
  obtain ⟨c, d⟩ := e
  simp only [allEdges, List.mem_filter, List.mem_product, mem_cells]
  constructor
  · rintro ⟨⟨h1, _⟩, h2⟩
    exact ⟨h1, h2⟩
  · rintro ⟨h1, h2⟩
    refine ⟨⟨h1, ?_⟩, h2⟩
    fin_cases d <;> simp

theorem nodup_allEdges {s : ℤ} : (allEdges s).Nodup := by
  apply List.Nodup.filter
  apply List.Nodup.product nodup_cells
  decide

theorem step_symm {m : Maze} {x y : Vec3} (h : Step m x y) : Step m y x := by
  simp only [Step, adjB, decide_eq_true_eq] at h ⊢
  obtain ⟨d, hd⟩ := h
  exact ⟨d, hd.symm⟩

theorem connected_symm {m : Maze} {x y : Vec3} (h : Connected m x y) :
    Connected m y x := by
  induction h with
  | refl => exact Relation.ReflTransGen.refl
  | tail _ hstep ih =>
      exact Relation.ReflTransGen.head (step_symm hstep) ih

theorem step_inLat {m : Maze} {x y : Vec3} (h : Step m x y) :
    inLat m.size x = true ∧ inLat m.size y = true := by
  simp only [Step, adjB, decide_eq_true_eq] at h
  obtain ⟨d, hd | hd⟩ := h
  · obtain ⟨rfl, ho⟩ := hd
    simp only [edgeOpenB, Bool.and_eq_true] at ho
    exact ⟨ho.1.2, ho.2⟩
  · obtain ⟨rfl, ho⟩ := hd
    simp only [edgeOpenB, Bool.and_eq_true] at ho
    exact ⟨ho.2, ho.1.2⟩

/-!
Executable reachability (breadth-first saturation) over a finite vertex
list, used by the Region Cleaner model to compute connected components,
together with its correctness against the propositional reflexive-
transitive closure.
-/

/-- One saturation step: add every vertex of `verts` that is not yet in
`s` but is adjacent to some member of `s`. -/
def grow (adj : Vec3 → Vec3 → Bool) (verts : List Vec3) (s : List Vec3) :
    List Vec3 :=
  s ++ verts.filter (fun v => !decide (v ∈ s) && s.any (fun u => adj u v))

/-- Iterate the saturation step `n` times. -/
def reachAux (adj : Vec3 → Vec3 → Bool) (verts : List Vec3) :
    ℕ → List Vec3 → List Vec3
  | 0, s => s
  | n + 1, s => reachAux adj verts n (grow adj verts s)

/-- All vertices reachable from `src`: saturation stabilizes after at
most `verts.length` rounds. -/
def reachList (adj : Vec3 → Vec3 → Bool) (verts : List Vec3) (src : Vec3) :
    List Vec3 :=
  reachAux adj verts verts.length [src]

/-- A vertex set is closed when no edge leaves it into `verts`. -/
def GrowClosed (adj : Vec3 → Vec3 → Bool) (verts s : List Vec3) : Prop :=
  ∀ u ∈ s, ∀ v ∈ verts, adj u v = true → v ∈ s

theorem subset_grow {adj verts} {s : List Vec3} : s ⊆ grow adj verts s :=
  fun _ h => List.mem_append_left _ h

theorem mem_grow {adj verts} {s : List Vec3} {v : Vec3} :
    v ∈ grow adj verts s ↔
      v ∈ s ∨ (v ∈ verts ∧ v ∉ s ∧ ∃ u ∈ s, adj u v = true) := by
  simp only [grow, List.mem_append, List.mem_filter, Bool.and_eq_true,
    Bool.not_eq_true', decide_eq_false_iff_not, List.any_eq_true]

theorem nodup_grow {adj verts} {s : List Vec3} (hv : verts.Nodup)
    (hs : s.Nodup) : (grow adj verts s).Nodup := by
  refine hs.append (hv.filter _) ?_
  intro v hvs hvf
  rw [List.mem_filter] at hvf
  simp only [Bool.and_eq_true, Bool.not_eq_true', decide_eq_false_iff_not] at hvf
  exact hvf.2.1 hvs

theorem grow_subset_verts {adj verts} {s : List Vec3} (hs : s ⊆ verts) :
    grow adj verts s ⊆ verts := by
  intro v hv
  rcases mem_grow.mp hv with h | h
  · exact hs h
  · exact h.1

theorem grow_eq_closed {adj verts} {s : List Vec3}
    (h : grow adj verts s = s) : GrowClosed adj verts s := by
  intro u hu v hv hadj
  by_contra hvs
  have : v ∈ grow adj verts s :=
    mem_grow.mpr (Or.inr ⟨hv, hvs, u, hu, hadj⟩)
  rw [h] at this
  exact hvs this

theorem grow_ne_length {adj verts} {s : List Vec3}
    (h : grow adj verts s ≠ s) :
    s.length + 1 ≤ (grow adj verts s).length := by
  unfold grow at h ⊢
  rcases hf : verts.filter (fun v => !decide (v ∈ s) && s.any (fun u => adj u v)) with
    _ | ⟨a, t⟩
  · rw [hf] at h
    simp at h
  · simp only [List.length_append, List.length_cons]
    omega

theorem reachAux_fix {adj verts} {s : List Vec3}
    (h : grow adj verts s = s) : ∀ n, reachAux adj verts n s = s := by
  intro n
  induction n with
  | zero => rfl
  | succ n ih =>
      show reachAux adj verts n (grow adj verts s) = s
      rw [h]
      exact ih

theorem reachAux_closed {adj verts} (hv : verts.Nodup) :
    ∀ (n : ℕ) (s : List Vec3), s.Nodup → s ⊆ verts →
      verts.length ≤ s.length + n →
      GrowClosed adj verts (reachAux adj verts n s) := by
  intro n
  induction n with
  | zero =>
      intro s hs hsub hlen
      simp only [reachAux]
      intro u hu v hvv hadj
      by_contra hvs
      have hsub2 : s ⊆ verts.erase v := by
        intro x hx
        have hne : x ≠ v := by
          intro hxv
          rw [hxv] at hx
          exact hvs hx
        exact (List.mem_erase_of_ne hne).mpr (hsub hx)
      have h1 : s.length ≤ (verts.erase v).length :=
        List.Subperm.length_le (List.subperm_of_subset hs hsub2)
      rw [List.length_erase_of_mem hvv] at h1
      have h2 : 1 ≤ verts.length := List.length_pos.mpr (fun he => by simp [he] at hvv)
      omega
  | succ n ih =>
      intro s hs hsub hlen
      show GrowClosed adj verts (reachAux adj verts n (grow adj verts s))
      by_cases hfix : grow adj verts s = s
      · rw [hfix, reachAux_fix hfix]
        exact grow_eq_closed hfix
      · exact ih (grow adj verts s) (nodup_grow hv hs) (grow_subset_verts hsub)
          (le_trans hlen (by have := grow_ne_length hfix; omega))

theorem subset_reachAux {adj verts} :
    ∀ (n : ℕ) (s : List Vec3), s ⊆ reachAux adj verts n s := by
  intro n
  induction n with
  | zero => intro s; exact fun _ h => h
  | succ n ih =>
      intro s
      exact fun v hv => ih (grow adj verts s) (subset_grow hv)

theorem reachAux_sound {adj verts} :
    ∀ (n : ℕ) (s : List Vec3) (v : Vec3), v ∈ reachAux adj verts n s →
      ∃ u ∈ s, Relation.ReflTransGen (fun a b => adj a b = true) u v := by
  intro n
  induction n with
  | zero =>
      intro s v hv
      exact ⟨v, hv, Relation.ReflTransGen.refl⟩
  | succ n ih =>
      intro s v hv
      obtain ⟨u, hu, hR⟩ := ih (grow adj verts s) v hv
      rcases mem_grow.mp hu with h | h
      · exact ⟨u, h, hR⟩
      · obtain ⟨w, hw, hadj⟩ := h.2.2
        exact ⟨w, hw, Relation.ReflTransGen.head hadj hR⟩

theorem reachList_sound {adj verts} {src v : Vec3}
    (h : v ∈ reachList adj verts src) :
    Relation.ReflTransGen (fun a b => adj a b = true) src v := by
  obtain ⟨u, hu, hR⟩ := reachAux_sound _ _ v h
  rw [List.mem_singleton] at hu
  exact hu ▸ hR

theorem self_mem_reachList {adj verts} {src : Vec3} :
    src ∈ reachList adj verts src :=
  subset_reachAux _ _ (List.mem_singleton.mpr rfl)

theorem reachList_closed {adj verts} (hv : verts.Nodup) {src : Vec3}
    (hsrc : src ∈ verts) :
    GrowClosed adj verts (reachList adj verts src) := by
  refine reachAux_closed hv verts.length [src] (List.nodup_singleton src) ?_ ?_
  · intro x hx
    rw [List.mem_singleton] at hx
    exact hx ▸ hsrc
  · simp

theorem reachList_complete {adj verts} (hv : verts.Nodup)
    (hadj : ∀ u w, adj u w = true → w ∈ verts) {src v : Vec3}
    (hsrc : src ∈ verts)
    (h : Relation.ReflTransGen (fun a b => adj a b = true) src v) :
    v ∈ reachList adj verts src := by
  induction h with
  | refl => exact self_mem_reachList
  | tail _ hstep ih =>
      exact reachList_closed hv hsrc _ ih _ (hadj _ _ hstep) hstep

/-!
Spanning Generator (`Maze::new_kruskal`).  Modelled from the spec:
enumerate all candidate edges, give each a random key perturbed per-axis
by the jitter ("bug") vector, process the edges in key order opening an
edge exactly when its endpoints lie in different union-find components,
then open each remaining closed edge with probability derived from
`percent`.  The union-find index is modelled extensionally as a
representative-labelling function: two cells are in the same component
exactly when their labels agree.
-/

/-- An edge key: lower endpoint plus axis. -/
abbrev MEdge := Vec3 × Fin 3

/-- Modelled from the spec: the maze module draws from a thread-local
random generator; the spec's design notes direct reimplementations to
pass an explicit seedable source instead.  `key` drives the randomized
edge ordering of the spanning pass; `draw` is the per-edge `[0,1)` draw
compared against `percent` in the loop pass. -/
structure Rng where
  key : MEdge → ℕ
  draw : MEdge → ℚ

/-- Per-axis component of the jitter ("bug") vector. -/
def jitter (bug : Vec3) : Fin 3 → ℤ
  | 0 => bug.1
  | 1 => bug.2.1
  | 2 => bug.2.2

/-- Randomized sort key of an edge, perturbed per-axis by the jitter
vector. -/
def sortKey (rng : Rng) (bug : Vec3) (e : MEdge) : ℤ :=
  (rng.key e : ℤ) + jitter bug e.2

/-- The randomized processing order of the spanning pass: all candidate
edges sorted by their perturbed random key. -/
def kruskalOrder (s : ℤ) (bug : Vec3) (rng : Rng) : List MEdge :=
  (allEdges s).insertionSort (fun a b => sortKey rng bug a ≤ sortKey rng bug b)

/-- One pass of the Kruskal fold over the remaining edge list.  State:
the union-find labelling and the list of opened (tree) edges.  An edge
is opened exactly when its endpoints carry different labels, and the two
label classes are then merged. -/
def kruskalFold : List MEdge → (Vec3 → Vec3) × List MEdge →
    (Vec3 → Vec3) × List MEdge
  | [], st => st
  | e :: rest, (lab, opened) =>
      if lab e.1 = lab (e.1 + delta e.2) then
        kruskalFold rest (lab, opened)
      else
        kruskalFold rest
          (fun v => if lab v = lab e.1 then lab (e.1 + delta e.2) else lab v,
            e :: opened)

/-- The spanning-tree edges selected by the Kruskal pass. -/
def kruskalTree (s : ℤ) (bug : Vec3) (rng : Rng) : List MEdge :=
  (kruskalFold (kruskalOrder s bug rng) (id, [])).2

/-- Modelled from the spec: `Maze::new_kruskal` (maze module not under
`src/`).  Opens the spanning-tree edges, then opens each remaining
closed candidate edge whose random draw falls below `percent`.  Total:
no error case for any positive lattice size. -/
def newKruskal (s : ℤ) (percent : ℚ) (bug : Vec3) (rng : Rng) : Maze :=
  { size := s
    edges := fun c d =>
      decide ((c, d) ∈ kruskalTree s bug rng) ||
        (inLat s c && inLat s (c + delta d) &&
          !decide ((c, d) ∈ kruskalTree s bug rng) &&
          decide (rng.draw (c, d) < percent))
    solid := fun _ => false }

/-- Number of non-tree edges opened by the loop pass. -/
def extraEdges (s : ℤ) (percent : ℚ) (bug : Vec3) (rng : Rng) : ℕ :=
  ((allEdges s).filter (fun e =>
    !decide (e ∈ kruskalTree s bug rng) && decide (rng.draw e < percent))).length

/-- Number of open candidate edges of a maze. -/
def openCount (m : Maze) : ℕ :=
  ((allEdges m.size).filter (fun e => edgeOpenB m e.1 e.2)).length

/-- A single step along one edge of an explicit edge list. -/
def EdgeStep (E : List MEdge) (x y : Vec3) : Prop :=
  ∃ e ∈ E, (x = e.1 ∧ y = e.1 + delta e.2) ∨ (y = e.1 ∧ x = e.1 + delta e.2)

/-- Connectivity through an explicit edge list. -/
def EdgeConn (E : List MEdge) (x y : Vec3) : Prop :=
  Relation.ReflTransGen (EdgeStep E) x y

theorem edgeStep_symm {E : List MEdge} {x y : Vec3} (h : EdgeStep E x y) :
    EdgeStep E y x := by
  obtain ⟨e, he, hd⟩ := h
  exact ⟨e, he, hd.symm⟩

theorem edgeConn_symm {E : List MEdge} {x y : Vec3} (h : EdgeConn E x y) :
    EdgeConn E y x := by
  induction h with
  | refl => exact Relation.ReflTransGen.refl
  | tail _ hstep ih => exact Relation.ReflTransGen.head (edgeStep_symm hstep) ih

theorem edgeConn_mono {E F : List MEdge} (hEF : E ⊆ F) {x y : Vec3}
    (h : EdgeConn E x y) : EdgeConn F x y := by
  refine Relation.ReflTransGen.mono ?_ h
  intro a b hab
  obtain ⟨e, he, hd⟩ := hab
  exact ⟨e, hEF he, hd⟩

theorem edgeConn_nil {x y : Vec3} (h : EdgeConn [] x y) : x = y := by
  induction h with
  | refl => rfl
  | tail _ hstep _ =>
      obtain ⟨e, he, _⟩ := hstep
      exact absurd he (List.not_mem_nil e)

/-- Merging the two endpoint classes of `e` makes the labelling classify
connectivity through `e :: opened`. -/
theorem merge_classes {lab : Vec3 → Vec3} {opened : List MEdge} {e : MEdge}
    (h1 : ∀ x y, lab x = lab y ↔ EdgeConn opened x y) (x y : Vec3) :
    ((if lab x = lab e.1 then lab (e.1 + delta e.2) else lab x) =
      (if lab y = lab e.1 then lab (e.1 + delta e.2) else lab y)) ↔
    EdgeConn (e :: opened) x y := by
  have hstep : EdgeStep (e :: opened) e.1 (e.1 + delta e.2) :=
    ⟨e, List.mem_cons_self e opened, Or.inl ⟨rfl, rfl⟩⟩
  have hmono : ∀ a b, EdgeConn opened a b → EdgeConn (e :: opened) a b :=
    fun a b => edgeConn_mono (fun f hf => List.mem_cons_of_mem e hf)
  constructor
  · intro hxy
    by_cases hx : lab x = lab e.1 <;> by_cases hy : lab y = lab e.1
    · exact Relation.ReflTransGen.trans (hmono _ _ ((h1 x e.1).mp hx))
        (edgeConn_symm (hmono _ _ ((h1 y e.1).mp hy)))
    · rw [if_pos hx, if_neg hy] at hxy
      refine Relation.ReflTransGen.trans (hmono _ _ ((h1 x e.1).mp hx)) ?_
      refine Relation.ReflTransGen.head hstep ?_
      exact hmono _ _ ((h1 _ y).mp hxy)
    · rw [if_neg hx, if_pos hy] at hxy
      refine Relation.ReflTransGen.trans (hmono _ _ ((h1 x _).mp hxy)) ?_
      refine Relation.ReflTransGen.head (edgeStep_symm hstep) ?_
      exact edgeConn_symm (hmono _ _ ((h1 y e.1).mp hy))
    · rw [if_neg hx, if_neg hy] at hxy
      exact hmono _ _ ((h1 x y).mp hxy)
  · intro hconn
    induction hconn with
    | refl => rfl
    | tail hprev hstep2 ih =>
        refine ih.trans ?_
        obtain ⟨f, hf, hd⟩ := hstep2
        rcases List.mem_cons.mp hf with rfl | hfo
        · rcases hd with ⟨rfl, rfl⟩ | ⟨rfl, rfl⟩
          · rw [if_pos rfl, ite_self]
          · rw [if_pos rfl, ite_self]
        · have hlab := (h1 _ _).mpr (Relation.ReflTransGen.single ⟨f, hfo, hd⟩)
          rw [hlab]

/-- Merging two distinct endpoint classes drops the class count by
exactly one. -/
theorem merge_card {s : ℤ} {lab : Vec3 → Vec3} {a b : Vec3}
    (ha : a ∈ cells s) (hb : b ∈ cells s) (hne : ¬ lab a = lab b) :
    ((cells s).toFinset.image
        (fun v => if lab v = lab a then lab b else lab v)).card + 1 =
      ((cells s).toFinset.image lab).card := by
  have himg : (cells s).toFinset.image
      (fun v => if lab v = lab a then lab b else lab v) =
      ((cells s).toFinset.image lab).erase (lab a) := by
    ext x
    simp only [Finset.mem_image, Finset.mem_erase, List.mem_toFinset]
    constructor
    · rintro ⟨v, hv, rfl⟩
      by_cases hva : lab v = lab a
      · rw [if_pos hva]
        exact ⟨fun h => hne h.symm, b, hb, rfl⟩
      · rw [if_neg hva]
        exact ⟨hva, v, hv, rfl⟩
    · rintro ⟨hxa, v, hv, rfl⟩
      refine ⟨v, hv, ?_⟩
      rw [if_neg hxa]
  rw [himg, Finset.card_erase_of_mem]
  · have hpos : 0 < ((cells s).toFinset.image lab).card := by
      refine Finset.card_pos.mpr ⟨lab a, ?_⟩
      exact Finset.mem_image.mpr ⟨a, List.mem_toFinset.mpr ha, rfl⟩
    omega
  · exact Finset.mem_image.mpr ⟨a, List.mem_toFinset.mpr ha, rfl⟩

/-- Label equalities are preserved by the rest of the fold. -/
theorem kruskalFold_label_mono :
    ∀ (L : List MEdge) (st : (Vec3 → Vec3) × List MEdge) (x y : Vec3),
      st.1 x = st.1 y → (kruskalFold L st).1 x = (kruskalFold L st).1 y := by
  intro L
  induction L with
  | nil => intro st x y h; exact h
  | cons e rest ih =>
      intro st x y h
      obtain ⟨lab, opened⟩ := st
      simp only [kruskalFold]
      by_cases hc : lab e.1 = lab (e.1 + delta e.2)
      · rw [if_pos hc]
        exact ih (lab, opened) x y h
      · rw [if_neg hc]
        replace h : lab x = lab y := h
        refine ih _ x y ?_
        show (if lab x = lab e.1 then lab (e.1 + delta e.2) else lab x) =
          (if lab y = lab e.1 then lab (e.1 + delta e.2) else lab y)
        rw [h]

/-- The Kruskal fold invariant: the labelling classifies exactly the
connectivity of the opened edges, the opened edges are distinct
candidate edges, and class count plus opened count equals cell count. -/
def KInv (s : ℤ) (st : (Vec3 → Vec3) × List MEdge) : Prop :=
  (∀ x y, st.1 x = st.1 y ↔ EdgeConn st.2 x y) ∧
  st.2 ⊆ allEdges s ∧ st.2.Nodup ∧
  ((cells s).toFinset.image st.1).card + st.2.length = (cells s).length

/-- Folding over any list of candidate edges preserves the invariant and
equalizes the labels of every processed edge's endpoints. -/
theorem kruskalFold_inv {s : ℤ} :
    ∀ (L : List MEdge) (st : (Vec3 → Vec3) × List MEdge),
      KInv s st → L ⊆ allEdges s →
      KInv s (kruskalFold L st) ∧
      ∀ e ∈ L, (kruskalFold L st).1 e.1 =
        (kruskalFold L st).1 (e.1 + delta e.2) := by
  intro L
  induction L with
  | nil =>
      intro st hinv _
      exact ⟨hinv, by simp⟩
  | cons e rest ih =>
      intro st hinv hsub
      obtain ⟨lab, opened⟩ := st
      obtain ⟨h1, h2, h3, h4⟩ := hinv
      dsimp only at h1 h2 h3 h4
      have hrsub : rest ⊆ allEdges s :=
        fun f hf => hsub (List.mem_cons_of_mem _ hf)
      have heall : e ∈ allEdges s := hsub (List.mem_cons_self e rest)
      have hends := mem_allEdges.mp heall
      have ha : e.1 ∈ cells s := mem_cells.mpr hends.1
      have hb : e.1 + delta e.2 ∈ cells s := mem_cells.mpr hends.2
      simp only [kruskalFold]
      by_cases hc : lab e.1 = lab (e.1 + delta e.2)
      · rw [if_pos hc]
        obtain ⟨hinv2, hall⟩ := ih (lab, opened) ⟨h1, h2, h3, h4⟩ hrsub
        refine ⟨hinv2, ?_⟩
        intro f hf
        rcases List.mem_cons.mp hf with rfl | hf'
        · exact kruskalFold_label_mono rest (lab, opened) _ _ hc
        · exact hall f hf'
      · rw [if_neg hc]
        have hnew1 := merge_classes (e := e) h1
        have hnew2 : (e :: opened) ⊆ allEdges s :=
          List.cons_subset.mpr ⟨heall, h2⟩
        have hnew3 : (e :: opened).Nodup := by
          refine List.nodup_cons.mpr ⟨?_, h3⟩
          intro hmem
          exact hc ((h1 _ _).mpr
            (Relation.ReflTransGen.single ⟨e, hmem, Or.inl ⟨rfl, rfl⟩⟩))
        have hnew4 : ((cells s).toFinset.image
            (fun v => if lab v = lab e.1 then lab (e.1 + delta e.2)
              else lab v)).card + (e :: opened).length = (cells s).length := by
          have hcard := @merge_card s lab _ _ ha hb hc
          simp only [List.length_cons]
          omega
        obtain ⟨hinv2, hall⟩ :=
          ih (fun v => if lab v = lab e.1 then lab (e.1 + delta e.2)
              else lab v, e :: opened) ⟨hnew1, hnew2, hnew3, hnew4⟩ hrsub
        refine ⟨hinv2, ?_⟩
        intro f hf
        rcases List.mem_cons.mp hf with rfl | hf'
        · refine kruskalFold_label_mono rest _ _ _ ?_
          show (if lab f.1 = lab f.1 then lab (f.1 + delta f.2) else lab f.1) =
            (if lab (f.1 + delta f.2) = lab f.1 then lab (f.1 + delta f.2)
              else lab (f.1 + delta f.2))
          rw [if_pos rfl, ite_self]
        · exact hall f hf'

/-- The full candidate-edge graph connects the origin to every lattice
cell (walk down one axis at a time). -/
theorem grid_conn_aux {s : ℤ} :
    ∀ (n : ℕ) (x y z : ℤ), 0 ≤ x → x < s → 0 ≤ y → y < s → 0 ≤ z → z < s →
      (x + y + z).toNat = n →
      EdgeConn (allEdges s) ((0 : ℤ), (0 : ℤ), (0 : ℤ)) (x, y, z) := by
  intro n
  induction n with
  | zero =>
      intro x y z hx0 hxs hy0 hys hz0 hzs hm
      have hx : x = 0 := by omega
      have hy : y = 0 := by omega
      have hz : z = 0 := by omega
      subst hx; subst hy; subst hz
      exact Relation.ReflTransGen.refl
  | succ n ih =>
      intro x y z hx0 hxs hy0 hys hz0 hzs hm
      by_cases hx1 : 1 ≤ x
      · have hsum : ((x - 1, y, z) : Vec3) + delta 0 = ((x, y, z) : Vec3) := by
          simp only [delta, Prod.mk_add_mk, Prod.mk.injEq]
          omega
        refine Relation.ReflTransGen.tail
          (ih (x - 1) y z (by omega) (by omega) hy0 hys hz0 hzs (by omega)) ?_
        refine ⟨((x - 1, y, z), 0), mem_allEdges.mpr ⟨?_, ?_⟩, Or.inl ⟨rfl, hsum.symm⟩⟩
        · simp only [inLat, decide_eq_true_eq]
          omega
        · rw [hsum]
          simp only [inLat, decide_eq_true_eq]
          omega
      · by_cases hy1 : 1 ≤ y
        · have hsum : ((x, y - 1, z) : Vec3) + delta 1 = ((x, y, z) : Vec3) := by
            simp only [delta, Prod.mk_add_mk, Prod.mk.injEq]
            omega
          refine Relation.ReflTransGen.tail
            (ih x (y - 1) z hx0 hxs (by omega) (by omega) hz0 hzs (by omega)) ?_
          refine ⟨((x, y - 1, z), 1), mem_allEdges.mpr ⟨?_, ?_⟩,
            Or.inl ⟨rfl, hsum.symm⟩⟩
          · simp only [inLat, decide_eq_true_eq]
            omega
          · rw [hsum]
            simp only [inLat, decide_eq_true_eq]
            omega
        · have hz1 : 1 ≤ z := by omega
          have hsum : ((x, y, z - 1) : Vec3) + delta 2 = ((x, y, z) : Vec3) := by
            simp only [delta, Prod.mk_add_mk, Prod.mk.injEq]
            omega
          refine Relation.ReflTransGen.tail
            (ih x y (z - 1) hx0 hxs hy0 hys (by omega) (by omega) (by omega)) ?_
          refine ⟨((x, y, z - 1), 2), mem_allEdges.mpr ⟨?_, ?_⟩,
            Or.inl ⟨rfl, hsum.symm⟩⟩
          · simp only [inLat, decide_eq_true_eq]
            omega
          · rw [hsum]
            simp only [inLat, decide_eq_true_eq]
            omega

/-- Any two lattice cells are connected through the candidate-edge
graph. -/
theorem grid_conn {s : ℤ} {x y : Vec3} (hx : x ∈ cells s) (hy : y ∈ cells s) :
    EdgeConn (allEdges s) x y := by
  have hx' := mem_cells.mp hx
  have hy' := mem_cells.mp hy
  simp only [inLat, decide_eq_true_eq] at hx' hy'
  obtain ⟨x1, x2, x3⟩ := x
  obtain ⟨y1, y2, y3⟩ := y
  refine Relation.ReflTransGen.trans
    (edgeConn_symm (grid_conn_aux ((x1 + x2 + x3).toNat) x1 x2 x3 hx'.1 hx'.2.1
      hx'.2.2.1 hx'.2.2.2.1 hx'.2.2.2.2.1 hx'.2.2.2.2.2 rfl)) ?_
  exact grid_conn_aux ((y1 + y2 + y3).toNat) y1 y2 y3 hy'.1 hy'.2.1
    hy'.2.2.1 hy'.2.2.2.1 hy'.2.2.2.2.1 hy'.2.2.2.2.2 rfl

/-- The initial Kruskal state satisfies the fold invariant. -/
theorem kruskal_init_inv {s : ℤ} : KInv s (id, ([] : List MEdge)) := by
  refine ⟨?_, ?_, ?_, ?_⟩
  · intro x y
    constructor
    · intro h
      have h' : x = y := h
      subst h'
      exact Relation.ReflTransGen.refl
    · intro h
      exact edgeConn_nil h
  · intro e he
    exact absurd he (List.not_mem_nil e)
  · exact List.nodup_nil
  · simp only [Finset.image_id, List.length_nil, add_zero]
    exact List.toFinset_card_of_nodup nodup_cells

/-- After the spanning pass every pair of lattice cells has the same
label. -/
theorem kruskal_labels_const {s : ℤ} (bug : Vec3) (rng : Rng) {x y : Vec3}
    (hx : x ∈ cells s) (hy : y ∈ cells s) :
    (kruskalFold (kruskalOrder s bug rng) (id, [])).1 x =
      (kruskalFold (kruskalOrder s bug rng) (id, [])).1 y := by
  have hperm : (kruskalOrder s bug rng).Perm (allEdges s) :=
    List.perm_insertionSort _ _
  obtain ⟨_, hall⟩ := kruskalFold_inv (s := s) (kruskalOrder s bug rng) (id, [])
    kruskal_init_inv hperm.subset
  have hgrid := grid_conn hx hy
  clear hx hy
  induction hgrid with
  | refl => rfl
  | tail _ hstep ih =>
      refine ih.trans ?_
      obtain ⟨e, he, hd⟩ := hstep
      have he' : e ∈ kruskalOrder s bug rng := hperm.mem_iff.mpr he
      rcases hd with ⟨rfl, rfl⟩ | ⟨rfl, rfl⟩
      · exact hall e he'
      · exact (hall e he').symm

/-- The spanning tree has exactly `|cells| - 1` edges. -/
theorem kruskalTree_length {s : ℤ} (hs : 1 ≤ s) (bug : Vec3) (rng : Rng) :
    (kruskalTree s bug rng).length + 1 = (cells s).length := by
  have hperm : (kruskalOrder s bug rng).Perm (allEdges s) :=
    List.perm_insertionSort _ _
  obtain ⟨⟨h1, h2, h3, h4⟩, hall⟩ := kruskalFold_inv (s := s)
    (kruskalOrder s bug rng) (id, []) kruskal_init_inv hperm.subset
  set res := kruskalFold (kruskalOrder s bug rng) (id, []) with hres
  have horig : ((0 : ℤ), (0 : ℤ), (0 : ℤ)) ∈ cells s := by
    rw [mem_cells]
    simp only [inLat, decide_eq_true_eq]
    omega
  have hcard : ((cells s).toFinset.image res.1).card = 1 := by
    have hle : ((cells s).toFinset.image res.1).card ≤ 1 := by
      refine Finset.card_le_one.mpr ?_
      intro a ha b hb
      obtain ⟨u, hu, rfl⟩ := Finset.mem_image.mp ha
      obtain ⟨v, hv, rfl⟩ := Finset.mem_image.mp hb
      exact kruskal_labels_const bug rng (List.mem_toFinset.mp hu)
        (List.mem_toFinset.mp hv)
    have hpos : 0 < ((cells s).toFinset.image res.1).card := by
      refine Finset.card_pos.mpr ⟨res.1 ((0 : ℤ), (0 : ℤ), (0 : ℤ)), ?_⟩
      exact Finset.mem_image.mpr ⟨_, List.mem_toFinset.mpr horig, rfl⟩
    omega
  have : (kruskalTree s bug rng).length = res.2.length := rfl
  rw [this]
  omega

/-- Splitting a filtered count over a disjoint disjunction. -/
theorem length_filter_or {α : Type} (p q : α → Bool) :
    ∀ (l : List α), (∀ a ∈ l, ¬(p a = true ∧ q a = true)) →
      (l.filter (fun a => p a || q a)).length =
        (l.filter p).length + (l.filter q).length := by
  intro l
  induction l with
  | nil => intro _; rfl
  | cons a t ih =>
      intro hd
      have ht : ∀ b ∈ t, ¬(p b = true ∧ q b = true) :=
        fun b hb => hd b (List.mem_cons_of_mem a hb)
      have hrec := ih ht
      by_cases hp : p a = true <;> by_cases hq : q a = true
      · exact absurd ⟨hp, hq⟩ (hd a (List.mem_cons_self a t))
      · simp [List.filter_cons, hp, hq, hrec]
        omega
      · simp [List.filter_cons, hp, hq, hrec]
        omega
      · simp [List.filter_cons, hp, hq, hrec]

/-- Counting the members of a duplicate-free sublist inside a
duplicate-free enumeration recovers its length. -/
theorem length_filter_mem {α : Type} [DecidableEq α] {l t : List α}
    (p : α → Bool) (hp : ∀ a, p a = true ↔ a ∈ t)
    (hsub : t ⊆ l) (hl : l.Nodup) (ht : t.Nodup) :
    (l.filter p).length = t.length := by
  have hfn : (l.filter p).Nodup := hl.filter _
  have hset : (l.filter p).toFinset = t.toFinset := by
    ext a
    simp only [List.mem_toFinset, List.mem_filter]
    constructor
    · intro h
      exact (hp a).mp h.2
    · intro h
      exact ⟨hsub h, (hp a).mpr h⟩
  calc (l.filter p).length
      = (l.filter p).toFinset.card := (List.toFinset_card_of_nodup hfn).symm
    _ = t.toFinset.card := by rw [hset]
    _ = t.length := List.toFinset_card_of_nodup ht

/-- The new maze opens every spanning-tree edge, hence connects any two
lattice cells. -/
theorem newKruskal_connected {s : ℤ} (percent : ℚ) (bug : Vec3) (rng : Rng)
    {x y : Vec3} (hx : x ∈ cells s) (hy : y ∈ cells s) :
    Connected (newKruskal s percent bug rng) x y := by
  have hperm : (kruskalOrder s bug rng).Perm (allEdges s) :=
    List.perm_insertionSort _ _
  obtain ⟨⟨h1, h2, _, _⟩, _⟩ := kruskalFold_inv (s := s)
    (kruskalOrder s bug rng) (id, []) kruskal_init_inv hperm.subset
  have hlab := kruskal_labels_const bug rng hx hy
  have htree : EdgeConn (kruskalTree s bug rng) x y := (h1 x y).mp hlab
  refine Relation.ReflTransGen.mono ?_ htree
  intro a b hab
  obtain ⟨e, he, hd⟩ := hab
  have heall : e ∈ allEdges s := h2 he
  have hin := mem_allEdges.mp heall
  have hopen : edgeOpenB (newKruskal s percent bug rng) e.1 e.2 = true := by
    simp only [edgeOpenB, newKruskal, hin.1, hin.2, Bool.and_true]
    have : decide ((e.1, e.2) ∈ kruskalTree s bug rng) = true :=
      decide_eq_true (by simpa using he)
    rw [this]
    rfl
  rcases hd with ⟨rfl, rfl⟩ | ⟨rfl, rfl⟩
  · show adjB _ _ _ = true
    simp only [adjB, decide_eq_true_eq]
    exact ⟨e.2, Or.inl ⟨rfl, hopen⟩⟩
  · show adjB _ _ _ = true
    simp only [adjB, decide_eq_true_eq]
    exact ⟨e.2, Or.inr ⟨rfl, hopen⟩⟩

/-- The open-edge count of the generated maze is tree edges plus
loop-pass edges. -/
theorem newKruskal_openCount {s : ℤ} (percent : ℚ) (bug : Vec3) (rng : Rng) :
    openCount (newKruskal s percent bug rng) =
      (kruskalTree s bug rng).length + extraEdges s percent bug rng := by
  have hperm : (kruskalOrder s bug rng).Perm (allEdges s) :=
    List.perm_insertionSort _ _
  obtain ⟨⟨_, h2, h3, _⟩, _⟩ := kruskalFold_inv (s := s)
    (kruskalOrder s bug rng) (id, []) kruskal_init_inv hperm.subset
  have h2' : kruskalTree s bug rng ⊆ allEdges s := h2
  have h3' : (kruskalTree s bug rng).Nodup := h3
  have hcongr : ∀ e ∈ allEdges s,
      edgeOpenB (newKruskal s percent bug rng) e.1 e.2 =
        (decide (e ∈ kruskalTree s bug rng) ||
          (!decide (e ∈ kruskalTree s bug rng) &&
            decide (rng.draw e < percent))) := by
    intro e he
    have hin := mem_allEdges.mp he
    simp only [edgeOpenB, newKruskal, hin.1, hin.2, Bool.and_true,
      Bool.true_and, Prod.mk.eta]
  have hdisj : ∀ e ∈ allEdges s,
      ¬(decide (e ∈ kruskalTree s bug rng) = true ∧
        (!decide (e ∈ kruskalTree s bug rng) &&
          decide (rng.draw e < percent)) = true) := by
    rintro e _ ⟨hp, hq⟩
    rw [Bool.and_eq_true, Bool.not_eq_true'] at hq
    rw [hp] at hq
    exact absurd hq.1 (by simp)
  have hmem := length_filter_mem
    (l := allEdges s) (t := kruskalTree s bug rng)
    (fun e => decide (e ∈ kruskalTree s bug rng)) (fun a => by simp)
    h2' nodup_allEdges h3'
  unfold openCount extraEdges
  rw [show (newKruskal s percent bug rng).size = s from rfl]
  rw [List.filter_congr hcongr]
  rw [length_filter_or _ _ (allEdges s) hdisj]
  rw [hmem]

/-- C1: for every half-size `h ≥ 1` and every percent, jitter vector and
random source, `Maze::new_kruskal` yields a maze whose open-edge graph
over all cells is connected (one component), and exactly
`|cells| - 1 + extra` candidate edges are open, where `extra` is the
number of non-tree edges opened by the loop pass (a natural number, so
`extra ≥ 0`); the construction is a total function, so it succeeds for
every positive lattice size. -/
theorem claim_C1 (h : ℕ) (hh : 1 ≤ h) (percent : ℚ) (bug : Vec3) (rng : Rng) :
    (∀ x ∈ cells (2 * h + 1 : ℤ), ∀ y ∈ cells (2 * h + 1 : ℤ),
      Connected (newKruskal (2 * h + 1 : ℤ) percent bug rng) x y) ∧
    openCount (newKruskal (2 * h + 1 : ℤ) percent bug rng) =
      (cells (2 * h + 1 : ℤ)).length - 1 +
        extraEdges (2 * h + 1 : ℤ) percent bug rng := by
  constructor
  · intro x hx y hy
    exact newKruskal_connected percent bug rng hx hy
  · have hs : (1 : ℤ) ≤ 2 * h + 1 := by omega
    have hlen := kruskalTree_length hs bug rng
    rw [newKruskal_openCount]
    omega

theorem claim_C1_witness :
    1 ≤ 1 ∧
    ((∀ x ∈ cells (2 * 1 + 1 : ℤ), ∀ y ∈ cells (2 * 1 + 1 : ℤ),
      Connected (newKruskal (2 * 1 + 1 : ℤ) 0 (0, 0, 0)
        ⟨fun _ => 0, fun _ => 0⟩) x y) ∧
    openCount (newKruskal (2 * 1 + 1 : ℤ) 0 (0, 0, 0)
        ⟨fun _ => 0, fun _ => 0⟩) =
      (cells (2 * 1 + 1 : ℤ)).length - 1 +
        extraEdges (2 * 1 + 1 : ℤ) 0 (0, 0, 0) ⟨fun _ => 0, fun _ => 0⟩) :=
  ⟨le_refl 1, claim_C1 1 (le_refl 1) 0 (0, 0, 0) ⟨fun _ => 0, fun _ => 0⟩⟩

/-!
Dead-End Eliminator (`fill_dead_corridors`).  Modelled from the spec: a
dead end is a degree-1 cell (the model carries no designated room/feature
cells, so the spec's room exception is vacuous here); one invocation
performs one full sweep closing the single open edge of every cell that
is a dead end at the start of the sweep, and reports whether any dead
end was removed.  `src/level.rs` line 34 iterates the sweep to a
fixpoint: `while maze.fill_dead_corridors() {}`.
-/

/-- Close every open edge incident to a cell of `D`. -/
def closeIncident (m : Maze) (D : List Vec3) : Maze :=
  { m with edges := fun c d =>
      m.edges c d && !decide (c ∈ D) && !decide (c + delta d ∈ D) }

/-- The current dead ends: lattice cells of degree exactly 1. -/
def deadEnds (m : Maze) : List Vec3 :=
  (cells m.size).filter (fun c => decide (degreeB m c = 1))

/-- Modelled from the spec: one sweep of `fill_dead_corridors` (maze
module not under `src/`): close the single open edge of every current
dead end, and return whether any dead end was removed. -/
def fillDead (m : Maze) : Maze × Bool :=
  (closeIncident m (deadEnds m), !(deadEnds m).isEmpty)

theorem length_filter_le_of_imp {α : Type} (p q : α → Bool) :
    ∀ (l : List α), (∀ a ∈ l, q a = true → p a = true) →
      (l.filter q).length ≤ (l.filter p).length := by
  intro l
  induction l with
  | nil => intro _; exact Nat.le_refl 0
  | cons a t ih =>
      intro himp
      have ht := ih (fun b hb => himp b (List.mem_cons_of_mem a hb))
      by_cases hq : q a = true
      · have hp := himp a (List.mem_cons_self a t) hq
        simp only [List.filter_cons, hq, hp, if_pos, List.length_cons]
        omega
      · rw [Bool.not_eq_true] at hq
        by_cases hp : p a = true
        · simp only [List.filter_cons, hq, hp]
          simp only [Bool.false_eq_true, if_false, if_true, List.length_cons]
          omega
        · rw [Bool.not_eq_true] at hp
          simp only [List.filter_cons, hq, hp]
          simp only [Bool.false_eq_true, if_false]
          exact ht

theorem length_filter_lt {α : Type} (p q : α → Bool) :
    ∀ (l : List α), (∀ a ∈ l, q a = true → p a = true) →
      ∀ e ∈ l, p e = true → q e = false →
        (l.filter q).length < (l.filter p).length := by
  intro l
  induction l with
  | nil =>
      intro _ e he
      exact absurd he (List.not_mem_nil e)
  | cons a t ih =>
      intro himp e he hpe hqe
      have himpt : ∀ b ∈ t, q b = true → p b = true :=
        fun b hb => himp b (List.mem_cons_of_mem a hb)
      rcases List.mem_cons.mp he with rfl | het
      · have hle := length_filter_le_of_imp p q t himpt
        simp only [List.filter_cons, hpe, hqe]
        simp only [Bool.false_eq_true, if_false, if_true, List.length_cons]
        omega
      · have hlt := ih himpt e het hpe hqe
        by_cases hqa : q a = true
        · have hpa := himp a (List.mem_cons_self a t) hqa
          simp only [List.filter_cons, hqa, hpa, if_true, List.length_cons]
          omega
        · rw [Bool.not_eq_true] at hqa
          by_cases hpa : p a = true
          · simp only [List.filter_cons, hqa, hpa]
            simp only [Bool.false_eq_true, if_false, if_true, List.length_cons]
            omega
          · rw [Bool.not_eq_true] at hpa
            simp only [List.filter_cons, hqa, hpa]
            simp only [Bool.false_eq_true, if_false]
            exact hlt

theorem closeIncident_size {m : Maze} {D : List Vec3} :
    (closeIncident m D).size = m.size := rfl

theorem edgeOpen_closeIncident_imp {m : Maze} {D : List Vec3} {c : Vec3}
    {d : Fin 3} (h : edgeOpenB (closeIncident m D) c d = true) :
    edgeOpenB m c d = true := by
  simp only [edgeOpenB, closeIncident, Bool.and_eq_true] at h ⊢
  exact ⟨⟨h.1.1.1.1, h.1.2⟩, h.2⟩

/-- A dead end owns an open edge, and the sweep closes it: the open-edge
count strictly decreases whenever a sweep reports a removal. -/
theorem fillDead_openCount_lt {m : Maze} (h : (fillDead m).2 = true) :
    openCount (fillDead m).1 < openCount m := by
  have hne : deadEnds m ≠ [] := by
    intro hnil
    rw [fillDead] at h
    simp only [hnil, List.isEmpty_nil, Bool.not_true] at h
    exact Bool.false_ne_true h
  obtain ⟨c0, hc0⟩ := List.exists_mem_of_ne_nil _ hne
  have hc0' := List.mem_filter.mp hc0
  have hdeg : degreeB m c0 = 1 := by
    have := hc0'.2
    rwa [decide_eq_true_eq] at this
  have hadj : ∃ y ∈ cells m.size, adjB m c0 y = true := by
    by_contra hno
    push_neg at hno
    have : (cells m.size).filter (fun y => adjB m c0 y) = [] :=
      List.filter_eq_nil.mpr (fun y hy => by
        rw [Bool.not_eq_true]
        rcases Bool.eq_false_or_eq_true (adjB m c0 y) with ht | hf
        · exact absurd ht (hno y hy)
        · exact hf)
    rw [degreeB, this] at hdeg
    exact absurd hdeg (by simp)
  obtain ⟨y, _, hay⟩ := hadj
  rw [adjB, decide_eq_true_eq] at hay
  obtain ⟨d, hd⟩ := hay
  have hedge : ∃ e : MEdge, edgeOpenB m e.1 e.2 = true ∧
      (e.1 = c0 ∨ e.1 + delta e.2 = c0) := by
    rcases hd with ⟨_, ho⟩ | ⟨hxy, ho⟩
    · exact ⟨(c0, d), ho, Or.inl rfl⟩
    · exact ⟨(y, d), ho, Or.inr hxy.symm⟩
  obtain ⟨e, hopen, hend⟩ := hedge
  have heall : e ∈ allEdges m.size := by
    rw [mem_allEdges]
    simp only [edgeOpenB, Bool.and_eq_true] at hopen
    exact ⟨hopen.1.2, hopen.2⟩
  have hclosed : edgeOpenB (fillDead m).1 e.1 e.2 = false := by
    simp only [fillDead, edgeOpenB, closeIncident]
    rcases hend with hc | hc
    · rw [hc, decide_eq_true hc0]
      simp
    · rw [hc, decide_eq_true hc0]
      simp
  show openCount (closeIncident m (deadEnds m)) < openCount m
  unfold openCount
  rw [closeIncident_size]
  exact length_filter_lt _ _ (allEdges m.size)
    (fun a _ ha => edgeOpen_closeIncident_imp (m := m) ha)
    e heall hopen hclosed

/-- The fixpoint loop `while maze.fill_dead_corridors() {}` from
`src/level.rs` line 34: iterate sweeps until one reports no change. -/
def fillFix (m : Maze) : Maze :=
  if h : (fillDead m).2 = true then fillFix (fillDead m).1 else m
termination_by openCount m
decreasing_by exact fillDead_openCount_lt h

/-- A cell of positive degree lies in the lattice. -/
theorem degree_pos_inLat {m : Maze} {c : Vec3} (h : degreeB m c ≠ 0) :
    inLat m.size c = true := by
  rw [degreeB] at h
  rcases hf : (cells m.size).filter (fun y => adjB m c y) with _ | ⟨y, t⟩
  · rw [hf] at h
    exact absurd rfl h
  · have hy : y ∈ (cells m.size).filter (fun y => adjB m c y) := by
      rw [hf]
      exact List.mem_cons_self y t
    have := (List.mem_filter.mp hy).2
    exact (step_inLat this).1

/-- The sweep reports no removal exactly when no cell has degree 1. -/
theorem fillDead_false_iff {m : Maze} :
    (fillDead m).2 = false ↔ ∀ c : Vec3, degreeB m c ≠ 1 := by
  show (!(deadEnds m).isEmpty) = false ↔ _
  rw [Bool.not_eq_false', List.isEmpty_iff_eq_nil]
  constructor
  · intro hnil c hdeg
    have hc : c ∈ deadEnds m := by
      rw [deadEnds, List.mem_filter]
      refine ⟨?_, decide_eq_true hdeg⟩
      rw [mem_cells]
      exact degree_pos_inLat (by omega)
    rw [hnil] at hc
    exact absurd hc (List.not_mem_nil c)
  · intro hall
    rcases hf : deadEnds m with _ | ⟨c, t⟩
    · rfl
    · have hc : c ∈ deadEnds m := by
        rw [hf]
        exact List.mem_cons_self c t
      have := (List.mem_filter.mp hc).2
      rw [decide_eq_true_eq] at this
      exact absurd this (hall c)

/-- A cell of `D` is fully sealed by `closeIncident`. -/
theorem degree_closeIncident_mem {m : Maze} {D : List Vec3} {c : Vec3}
    (hc : c ∈ D) : degreeB (closeIncident m D) c = 0 := by
  rw [degreeB]
  rw [List.length_eq_zero]
  refine List.filter_eq_nil.mpr ?_
  intro y _
  rw [Bool.not_eq_true]
  rw [adjB, decide_eq_false_iff_not]
  rintro ⟨d, ⟨_, ho⟩ | ⟨hx, ho⟩⟩
  · simp only [edgeOpenB, closeIncident, decide_eq_true hc, Bool.not_true,
      Bool.and_false, Bool.false_and, Bool.false_eq_true] at ho
  · rw [edgeOpenB, closeIncident] at ho
    simp only at ho
    rw [← hx] at ho
    simp only [decide_eq_true hc, Bool.not_true, Bool.and_false,
      Bool.false_and, Bool.false_eq_true] at ho

/-- Edges with both endpoints outside `D` are untouched by the sweep. -/
theorem adjB_closeIncident_not_mem {m : Maze} {D : List Vec3} {x z : Vec3}
    (hx : x ∉ D) (hz : z ∉ D) (h : adjB m x z = true) :
    adjB (closeIncident m D) x z = true := by
  rw [adjB, decide_eq_true_eq] at h ⊢
  obtain ⟨d, hd⟩ := h
  refine ⟨d, ?_⟩
  rcases hd with ⟨hy, ho⟩ | ⟨hy, ho⟩
  · refine Or.inl ⟨hy, ?_⟩
    simp only [edgeOpenB, closeIncident, Bool.and_eq_true] at ho ⊢
    refine ⟨⟨⟨⟨ho.1.1, ?_⟩, ?_⟩, ho.1.2⟩, ho.2⟩
    · simp [hx]
    · rw [← hy]
      simp [hz]
  · refine Or.inr ⟨hy, ?_⟩
    simp only [edgeOpenB, closeIncident, Bool.and_eq_true] at ho ⊢
    refine ⟨⟨⟨⟨ho.1.1, ?_⟩, ?_⟩, ho.1.2⟩, ho.2⟩
    · simp [hz]
    · rw [← hy]
      simp [hx]

/-- A degree-1 cell has a unique open neighbor. -/
theorem degree_one_unique {m : Maze} {c y w : Vec3} (hdeg : degreeB m c = 1)
    (hy : adjB m c y = true) (hw : adjB m c w = true) : y = w := by
  rw [degreeB] at hdeg
  obtain ⟨a, ha⟩ := List.length_eq_one.mp hdeg
  have hym : y ∈ (cells m.size).filter (fun v => adjB m c v) := by
    rw [List.mem_filter]
    exact ⟨mem_cells.mpr (step_inLat hy).2, hy⟩
  have hwm : w ∈ (cells m.size).filter (fun v => adjB m c v) := by
    rw [List.mem_filter]
    exact ⟨mem_cells.mpr (step_inLat hw).2, hw⟩
  rw [ha, List.mem_singleton] at hym hwm
  rw [hym, hwm]

/-- Walks of bounded length, used to run the dead-end detour-removal
argument by induction on length. -/
def ReachN (m : Maze) : ℕ → Vec3 → Vec3 → Prop
  | 0, x, y => x = y
  | n + 1, x, y => x = y ∨ ∃ z, Step m x z ∧ ReachN m n z y

theorem reachN_snoc {m : Maze} :
    ∀ {n : ℕ} {x y z : Vec3}, ReachN m n x y → Step m y z →
      ReachN m (n + 1) x z := by
  intro n
  induction n with
  | zero =>
      intro x y z hxy hs
      have hxy' : x = y := hxy
      subst hxy'
      exact Or.inr ⟨z, hs, rfl⟩
  | succ n ih =>
      intro x y z hxy hs
      rcases hxy with rfl | ⟨w, hw, hr⟩
      · exact Or.inr ⟨z, hs, Or.inl rfl⟩
      · exact Or.inr ⟨w, hw, ih hr hs⟩

theorem connected_to_reachN {m : Maze} {x y : Vec3} (h : Connected m x y) :
    ∃ n, ReachN m n x y := by
  induction h with
  | refl => exact ⟨0, rfl⟩
  | tail _ hstep ih =>
      obtain ⟨n, hn⟩ := ih
      exact ⟨n + 1, reachN_snoc hn hstep⟩

theorem reachN_to_connected {m : Maze} :
    ∀ {n : ℕ} {x y : Vec3}, ReachN m n x y → Connected m x y := by
  intro n
  induction n with
  | zero =>
      intro x y h
      have h' : x = y := h
      subst h'
      exact Relation.ReflTransGen.refl
  | succ n ih =>
      intro x y h
      rcases h with rfl | ⟨z, hz, hr⟩
      · exact Relation.ReflTransGen.refl
      · exact Relation.ReflTransGen.head hz (ih hr)

/-- Detour removal: a walk between two cells that are not dead ends can
be rerouted to avoid all dead-end stubs, so it survives the sweep. -/
theorem stub_preserve_aux {m : Maze} {D : List Vec3}
    (hD : ∀ c ∈ D, degreeB m c = 1) :
    ∀ (n : ℕ), ∀ {x y : Vec3}, ReachN m n x y → x ∉ D → y ∉ D →
      Connected (closeIncident m D) x y := by
  intro n
  induction n using Nat.strong_induction_on with
  | _ n ih =>
      intro x y hr hx hy
      cases n with
      | zero =>
          have h' : x = y := hr
          subst h'
          exact Relation.ReflTransGen.refl
      | succ k =>
          have hr' : x = y ∨ ∃ z, Step m x z ∧ ReachN m k z y := hr
          rcases hr' with rfl | ⟨z, hxz, hzy⟩
          · exact Relation.ReflTransGen.refl
          · by_cases hzD : z ∈ D
            · cases k with
              | zero =>
                  have h' : z = y := hzy
                  subst h'
                  exact absurd hzD hy
              | succ k' =>
                  have hzy' : z = y ∨ ∃ w, Step m z w ∧ ReachN m k' w y := hzy
                  rcases hzy' with rfl | ⟨w, hzw, hwy⟩
                  · exact absurd hzD hy
                  · have hzx : adjB m z x = true := step_symm hxz
                    have hwx : w = x :=
                      degree_one_unique (hD z hzD) hzw hzx
                    subst hwx
                    exact ih k' (by omega) hwy hx hy
            · refine Relation.ReflTransGen.head
                (adjB_closeIncident_not_mem hx hzD hxz) ?_
              exact ih k (by omega) hzy hzD hy

/-- Closing the dead ends' edges preserves connectivity between any two
cells that are not themselves dead ends. -/
theorem closeIncident_preserves_conn {m : Maze} {D : List Vec3}
    (hD : ∀ c ∈ D, degreeB m c = 1) {x y : Vec3}
    (hx : x ∉ D) (hy : y ∉ D) (h : Connected m x y) :
    Connected (closeIncident m D) x y := by
  obtain ⟨n, hn⟩ := connected_to_reachN h
  exact stub_preserve_aux hD n hn hx hy

/-- Iterating the sweep terminates in a state where a further sweep
reports no change. -/
theorem fillFix_aux : ∀ (k : ℕ) (m : Maze), openCount m ≤ k →
    (fillDead (fillFix m)).2 = false := by
  intro k
  induction k with
  | zero =>
      intro m hle
      rw [fillFix]
      by_cases h : (fillDead m).2 = true
      · exact absurd (fillDead_openCount_lt h) (by omega)
      · rw [dif_neg h]
        rwa [Bool.not_eq_true] at h
  | succ k ih =>
      intro m hle
      rw [fillFix]
      by_cases h : (fillDead m).2 = true
      · rw [dif_pos h]
        exact ih _ (by have := fillDead_openCount_lt h; omega)
      · rw [dif_neg h]
        rwa [Bool.not_eq_true] at h

theorem fillFix_no_deadEnds (m : Maze) : ∀ c, degreeB (fillFix m) c ≠ 1 :=
  fillDead_false_iff.mp (fillFix_aux (openCount m) m (le_refl _))

/-- C2: one invocation of `fill_dead_corridors` performs exactly one
sweep: it returns `true` iff some dead end (degree-1 cell; the model has
no designated room cells) exists, it seals the single open edge of every
current dead end (their degree drops to 0), and it leaves every edge not
incident to a dead end unchanged; after the caller's
`while fill_dead_corridors() {}` loop, no cell has degree 1 and one
further invocation returns `false`. -/
theorem claim_C2 (m : Maze) :
    ((fillDead m).2 = true ↔ ∃ c, degreeB m c = 1) ∧
    (∀ c, degreeB m c = 1 → degreeB (fillDead m).1 c = 0) ∧
    (∀ c d, c ∉ deadEnds m → c + delta d ∉ deadEnds m →
      (fillDead m).1.edges c d = m.edges c d) ∧
    (∀ c, degreeB (fillFix m) c ≠ 1) ∧
    (fillDead (fillFix m)).2 = false := by
  have hmem : ∀ c, degreeB m c = 1 → c ∈ deadEnds m := by
    intro c hdeg
    rw [deadEnds, List.mem_filter]
    refine ⟨?_, decide_eq_true hdeg⟩
    rw [mem_cells]
    exact degree_pos_inLat (by omega)
  refine ⟨?_, ?_, ?_, fillFix_no_deadEnds m, fillFix_aux (openCount m) m (le_refl _)⟩
  · constructor
    · intro htrue
      by_contra hno
      push_neg at hno
      have : (fillDead m).2 = false := fillDead_false_iff.mpr hno
      rw [htrue] at this
      exact absurd this (by simp)
    · rintro ⟨c, hc⟩
      rcases Bool.eq_false_or_eq_true (fillDead m).2 with ht | hf
      · exact ht
      · exact absurd hc (fillDead_false_iff.mp hf c)
  · intro c hdeg
    exact degree_closeIncident_mem (hmem c hdeg)
  · intro c d hc hcd
    show (closeIncident m (deadEnds m)).edges c d = m.edges c d
    simp only [closeIncident, decide_eq_false hc, decide_eq_false hcd,
      Bool.not_false, Bool.and_true]

/-- C3: a dead-end sweep never disconnects surviving structure: any two
cells that are not themselves dead ends and are connected before the
sweep remain connected after it (only the terminal stub cells lose
access). -/
theorem claim_C3 (m : Maze) (x y : Vec3) (hx : degreeB m x ≠ 1)
    (hy : degreeB m y ≠ 1) (h : Connected m x y) :
    Connected (fillDead m).1 x y := by
  refine closeIncident_preserves_conn ?_ ?_ ?_ h
  · intro c hc
    exact decide_eq_true_eq.mp (List.mem_filter.mp hc).2
  · intro hxm
    exact hx (decide_eq_true_eq.mp (List.mem_filter.mp hxm).2)
  · intro hym
    exact hy (decide_eq_true_eq.mp (List.mem_filter.mp hym).2)

/-- A one-cell maze with no open edges, used as a concrete instance. -/
def mazeA : Maze :=
  { size := 1, edges := fun _ _ => false, solid := fun _ => false }

theorem claim_C3_witness :
    degreeB mazeA ((0 : ℤ), (0 : ℤ), (0 : ℤ)) ≠ 1 ∧
    Connected (fillDead mazeA).1 ((0 : ℤ), (0 : ℤ), (0 : ℤ))
      ((0 : ℤ), (0 : ℤ), (0 : ℤ)) :=
  ⟨by decide, claim_C3 mazeA _ _ (by decide) (by decide)
    Relation.ReflTransGen.refl⟩

/-!
Shape Carver (`Maze::circle`).  Modelled from the spec: for each cell,
compute the distance from the lattice center; cells beyond the inscribed
sphere radius are marked outside and all their edges are forced closed,
while edges between two inside cells are untouched.  With side
`s = 2h+1` the center cell is `(h, h, h)` and the radius is `h`.
-/

/-- Squared Euclidean distance between two lattice coordinates. -/
def dist2 (a b : Vec3) : ℤ :=
  (a.1 - b.1) ^ 2 + (a.2.1 - b.2.1) ^ 2 + (a.2.2 - b.2.2) ^ 2

/-- The cell lies beyond the sphere inscribed in the lattice of side
`s`. -/
def outsideSphere (s : ℤ) (c : Vec3) : Bool :=
  decide (((s - 1) / 2) ^ 2 <
    dist2 c ((s - 1) / 2, (s - 1) / 2, (s - 1) / 2))

/-- Modelled from the spec: `Maze::circle` (maze module not under
`src/`): mark every cell beyond the sphere radius as outside (solid) and
force all its edges closed. -/
def circle (m : Maze) : Maze :=
  { m with
    edges := fun c d =>
      m.edges c d && !outsideSphere m.size c &&
        !outsideSphere m.size (c + delta d)
    solid := fun c => m.solid c || outsideSphere m.size c }

/-- C5: after the Shape Carver, every cell whose distance from the
lattice center exceeds the sphere radius is marked outside and has
degree 0 in the open-edge graph, while no edge between two inside-sphere
cells is changed by carving. -/
theorem claim_C5 (m : Maze) :
    (∀ c, outsideSphere m.size c = true →
      (circle m).solid c = true ∧ degreeB (circle m) c = 0) ∧
    (∀ c d, outsideSphere m.size c = false →
      outsideSphere m.size (c + delta d) = false →
      (circle m).edges c d = m.edges c d) := by
  constructor
  · intro c hc
    constructor
    · simp only [circle, hc, Bool.or_true]
    · rw [degreeB]
      rw [List.length_eq_zero]
      refine List.filter_eq_nil.mpr ?_
      intro y _
      rw [Bool.not_eq_true]
      rw [adjB, decide_eq_false_iff_not]
      rintro ⟨d, ⟨_, ho⟩ | ⟨hx, ho⟩⟩
      · simp only [edgeOpenB, circle, hc, Bool.not_true, Bool.and_false,
          Bool.false_and, Bool.false_eq_true] at ho
      · rw [edgeOpenB, circle] at ho
        simp only at ho
        rw [← hx] at ho
        simp only [hc, Bool.not_true, Bool.and_false, Bool.false_and,
          Bool.false_eq_true] at ho
  · intro c d hc hcd
    simp only [circle, hc, hcd, Bool.not_false, Bool.and_true]

theorem claim_C5_witness :
    (∀ c, outsideSphere mazeA.size c = true →
      (circle mazeA).solid c = true ∧ degreeB (circle mazeA) c = 0) ∧
    (∀ c d, outsideSphere mazeA.size c = false →
      outsideSphere mazeA.size (c + delta d) = false →
      (circle mazeA).edges c d = mazeA.edges c d) :=
  claim_C5 mazeA

/-!
Region Cleaner (`Maze::fill_smallests`).  Modelled from the spec:
identify the connected components of the open-edge graph restricted to
inside (non-solid) cells by a deterministic scan in cell-enumeration
order, retain the largest component — the first encountered on ties —
and fill all others (cells marked solid, edges closed).
-/

/-- The inside (non-solid) lattice cells, in enumeration order. -/
def insideCells (m : Maze) : List Vec3 :=
  (cells m.size).filter (fun c => !m.solid c)

/-- Open-edge adjacency restricted to inside cells. -/
def insideAdj (m : Maze) (x y : Vec3) : Bool :=
  adjB m x y && !m.solid x && !m.solid y

/-- Connectivity through inside cells only. -/
def InsideConn (m : Maze) (x y : Vec3) : Prop :=
  Relation.ReflTransGen (fun a b => insideAdj m a b = true) x y

/-- One scan step of the component enumeration: start a fresh traversal
at any cell not already collected. -/
def compStep (m : Maze) (acc : List (List Vec3)) (c : Vec3) :
    List (List Vec3) :=
  if acc.any (fun comp => decide (c ∈ comp)) then acc
  else acc ++ [reachList (insideAdj m) (insideCells m) c]

/-- All components of the inside open-edge graph, in first-encounter
order of their roots. -/
def componentsList (m : Maze) : List (List Vec3) :=
  (insideCells m).foldl (compStep m) []

/-- First maximal-length element: replacement only on strictly greater
length keeps the first encountered on ties. -/
def firstMax : List (List Vec3) → Option (List Vec3)
  | [] => none
  | c :: rest =>
      some (rest.foldl (fun best comp =>
        if best.length < comp.length then comp else best) c)

/-- Modelled from the spec: `Maze::fill_smallests` (maze module not
under `src/`): keep the largest component (first on ties), mark every
other inside cell solid and close every edge not internal to the kept
component. -/
def fillSmallests (m : Maze) : Maze :=
  match firstMax (componentsList m) with
  | none => m
  | some keep =>
      { m with
        edges := fun c d =>
          m.edges c d && decide (c ∈ keep) && decide (c + delta d ∈ keep)
        solid := fun c =>
          m.solid c || (inLat m.size c && !decide (c ∈ keep)) }

theorem reachAux_subset_verts {adj verts} :
    ∀ (n : ℕ) (s : List Vec3), s ⊆ verts → reachAux adj verts n s ⊆ verts := by
  intro n
  induction n with
  | zero => intro s hs; exact hs
  | succ n ih => intro s hs; exact ih _ (grow_subset_verts hs)

theorem reachList_subset {adj verts} {src : Vec3} (hsrc : src ∈ verts) :
    reachList adj verts src ⊆ verts := by
  refine reachAux_subset_verts _ _ ?_
  intro x hx
  rw [List.mem_singleton] at hx
  exact hx ▸ hsrc

/-- The traversal set from `src` is exactly its connectivity class
within `verts`. -/
theorem mem_reachList_iff {adj verts} (hv : verts.Nodup)
    (hadj : ∀ u w, adj u w = true → w ∈ verts) {src : Vec3}
    (hsrc : src ∈ verts) (v : Vec3) :
    v ∈ reachList adj verts src ↔
      v ∈ verts ∧ Relation.ReflTransGen (fun a b => adj a b = true) src v := by
  constructor
  · intro h
    exact ⟨reachList_subset hsrc h, reachList_sound h⟩
  · rintro ⟨_, h⟩
    exact reachList_complete hv hadj hsrc h

theorem insideAdj_symm {m : Maze} {x y : Vec3}
    (h : insideAdj m x y = true) : insideAdj m y x = true := by
  rw [insideAdj, Bool.and_eq_true, Bool.and_eq_true] at h ⊢
  exact ⟨⟨step_symm h.1.1, h.2⟩, h.1.2⟩

theorem insideConn_symm {m : Maze} {x y : Vec3} (h : InsideConn m x y) :
    InsideConn m y x := by
  induction h with
  | refl => exact Relation.ReflTransGen.refl
  | tail _ hstep ih => exact Relation.ReflTransGen.head (insideAdj_symm hstep) ih

theorem insideAdj_mem {m : Maze} {u w : Vec3}
    (h : insideAdj m u w = true) : w ∈ insideCells m := by
  rw [insideAdj, Bool.and_eq_true, Bool.and_eq_true] at h
  rw [insideCells, List.mem_filter]
  exact ⟨mem_cells.mpr (step_inLat h.1.1).2, h.2⟩

theorem nodup_insideCells {m : Maze} : (insideCells m).Nodup :=
  nodup_cells.filter _

theorem compFold_mono {m : Maze} :
    ∀ (l : List Vec3) (acc : List (List Vec3)) (comp : List Vec3),
      comp ∈ acc → comp ∈ l.foldl (compStep m) acc := by
  intro l
  induction l with
  | nil => intro acc comp h; exact h
  | cons a t ih =>
      intro acc comp h
      refine ih (compStep m acc a) comp ?_
      rw [compStep]
      by_cases hany : acc.any (fun comp => decide (a ∈ comp)) = true
      · rw [if_pos hany]
        exact h
      · rw [if_neg hany]
        exact List.mem_append_left _ h

theorem compFold_covers {m : Maze} :
    ∀ (l : List Vec3) (acc : List (List Vec3)), ∀ c ∈ l,
      ∃ comp ∈ l.foldl (compStep m) acc, c ∈ comp := by
  intro l
  induction l with
  | nil =>
      intro acc c hc
      exact absurd hc (List.not_mem_nil c)
  | cons a t ih =>
      intro acc c hc
      rcases List.mem_cons.mp hc with rfl | hct
      · by_cases hany : acc.any (fun comp => decide (c ∈ comp)) = true
        · obtain ⟨comp, hcomp, hmem⟩ := List.any_eq_true.mp hany
          rw [decide_eq_true_eq] at hmem
          refine ⟨comp, ?_, hmem⟩
          refine compFold_mono t _ comp ?_
          rw [compStep, if_pos hany]
          exact hcomp
        · refine ⟨reachList (insideAdj m) (insideCells m) c, ?_, self_mem_reachList⟩
          refine compFold_mono t _ _ ?_
          rw [compStep, if_neg hany]
          exact List.mem_append_right _ (List.mem_singleton.mpr rfl)
      · exact ih (compStep m acc a) c hct

/-- Invariant of the component scan: every collected component is the
traversal set of an inside root, and distinct components never share a
cell. -/
def CompsOk (m : Maze) (acc : List (List Vec3)) : Prop :=
  (∀ comp ∈ acc, ∃ r ∈ insideCells m,
    comp = reachList (insideAdj m) (insideCells m) r) ∧
  acc.Pairwise (fun c1 c2 => ∀ x, ¬(x ∈ c1 ∧ x ∈ c2))

theorem compFold_ok {m : Maze} :
    ∀ (l : List Vec3) (acc : List (List Vec3)), l ⊆ insideCells m →
      CompsOk m acc → CompsOk m (l.foldl (compStep m) acc) := by
  intro l
  induction l with
  | nil => intro acc _ h; exact h
  | cons a t ih =>
      intro acc hsub ⟨hroots, hdis⟩
      refine ih (compStep m acc a) (fun x hx => hsub (List.mem_cons_of_mem a hx)) ?_
      rw [compStep]
      by_cases hany : acc.any (fun comp => decide (a ∈ comp)) = true
      · rw [if_pos hany]
        exact ⟨hroots, hdis⟩
      · rw [if_neg hany]
        have ha : a ∈ insideCells m := hsub (List.mem_cons_self a t)
        have hnotin : ∀ comp ∈ acc, a ∉ comp := by
          intro comp hcomp hmem
          refine hany ?_
          exact List.any_eq_true.mpr ⟨comp, hcomp, decide_eq_true hmem⟩
        constructor
        · intro comp hcomp
          rcases List.mem_append.mp hcomp with h | h
          · exact hroots comp h
          · rw [List.mem_singleton] at h
            exact ⟨a, ha, h⟩
        · rw [List.pairwise_append]
          refine ⟨hdis, List.pairwise_singleton _ _, ?_⟩
          intro c1 hc1 c2 hc2
          rw [List.mem_singleton] at hc2
          subst hc2
          rintro x ⟨hx1, hx2⟩
          obtain ⟨r, hr, rfl⟩ := hroots c1 hc1
          have hx1' := (mem_reachList_iff nodup_insideCells
            (fun u w h => insideAdj_mem h) hr x).mp hx1
          have hx2' := (mem_reachList_iff nodup_insideCells
            (fun u w h => insideAdj_mem h) ha x).mp hx2
          have hra : InsideConn m r a :=
            Relation.ReflTransGen.trans hx1'.2 (insideConn_symm hx2'.2)
          have haC : a ∈ reachList (insideAdj m) (insideCells m) r :=
            (mem_reachList_iff nodup_insideCells
              (fun u w h => insideAdj_mem h) hr a).mpr ⟨ha, hra⟩
          exact hnotin _ hc1 haC

/-- The strictly-greater fold keeps the first maximal element. -/
theorem firstMax_fold :
    ∀ (rest : List (List Vec3)) (best : List Vec3),
      (rest.foldl (fun b c => if b.length < c.length then c else b) best = best ∧
        ∀ comp ∈ rest, comp.length ≤ best.length) ∨
      (∃ l1 l2,
        rest = l1 ++
          (rest.foldl (fun b c => if b.length < c.length then c else b) best) :: l2 ∧
        best.length <
          (rest.foldl (fun b c => if b.length < c.length then c else b) best).length ∧
        (∀ comp ∈ l1, comp.length <
          (rest.foldl (fun b c => if b.length < c.length then c else b) best).length) ∧
        (∀ comp ∈ l2, comp.length ≤
          (rest.foldl (fun b c => if b.length < c.length then c else b) best).length)) := by
  intro rest
  induction rest with
  | nil =>
      intro best
      exact Or.inl ⟨rfl, by simp⟩
  | cons comp t ih =>
      intro best
      simp only [List.foldl_cons]
      by_cases hc : best.length < comp.length
      · rw [if_pos hc]
        rcases ih comp with ⟨heq, hall⟩ | ⟨l1, l2, hdec, hlt, hl1, hl2⟩
        · refine Or.inr ⟨[], t, ?_, ?_, ?_, ?_⟩
          · rw [heq]
            rfl
          · rw [heq]
            exact hc
          · intro x hx
            exact absurd hx (List.not_mem_nil x)
          · rw [heq]
            exact hall
        · refine Or.inr ⟨comp :: l1, l2, ?_, ?_, ?_, hl2⟩
          · rw [List.cons_append, ← hdec]
          · omega
          · intro x hx
            rcases List.mem_cons.mp hx with rfl | hx'
            · omega
            · exact hl1 x hx'
      · rw [if_neg hc]
        rcases ih best with ⟨heq, hall⟩ | ⟨l1, l2, hdec, hlt, hl1, hl2⟩
        · refine Or.inl ⟨heq, ?_⟩
          intro x hx
          rcases List.mem_cons.mp hx with rfl | hx'
          · omega
          · exact hall x hx'
        · refine Or.inr ⟨comp :: l1, l2, ?_, hlt, ?_, hl2⟩
          · rw [List.cons_append, ← hdec]
          · intro x hx
            rcases List.mem_cons.mp hx with rfl | hx'
            · omega
            · exact hl1 x hx'

/-- Any result of `firstMax` splits its list into a strictly-smaller
prefix, itself, and a no-larger suffix: it is the largest element and the
first encountered among ties. -/
theorem firstMax_spec {l : List (List Vec3)} {keep : List Vec3}
    (h : firstMax l = some keep) :
    ∃ l1 l2, l = l1 ++ keep :: l2 ∧
      (∀ comp ∈ l1, comp.length < keep.length) ∧
      (∀ comp ∈ l2, comp.length ≤ keep.length) := by
  match l, h with
  | c :: rest, h =>
      rw [firstMax, Option.some.injEq] at h
      rcases firstMax_fold rest c with
        ⟨heq, hall⟩ | ⟨l1, l2, hdec, hlt, hl1, hl2⟩
      · refine ⟨[], rest, ?_, ?_, ?_⟩
        · rw [← h, heq]
          rfl
        · intro x hx
          exact absurd hx (List.not_mem_nil x)
        · rw [← h, heq]
          exact hall
      · refine ⟨c :: l1, l2, ?_, ?_, ?_⟩
        · rw [← h, List.cons_append, ← hdec]
        · intro x hx
          rcases List.mem_cons.mp hx with rfl | hx'
          · rw [← h]
            omega
          · rw [← h]
            exact hl1 x hx'
        · rw [← h]
          exact hl2

theorem fillSmallests_edges {m : Maze} {keep : List Vec3}
    (hK : firstMax (componentsList m) = some keep) :
    (fillSmallests m).edges = fun c d =>
      m.edges c d && decide (c ∈ keep) && decide (c + delta d ∈ keep) := by
  unfold fillSmallests
  rw [hK]

theorem fillSmallests_solid {m : Maze} {keep : List Vec3}
    (hK : firstMax (componentsList m) = some keep) :
    (fillSmallests m).solid = fun c =>
      m.solid c || (inLat m.size c && !decide (c ∈ keep)) := by
  unfold fillSmallests
  rw [hK]

theorem adjB_fillSmallests {m : Maze} {keep : List Vec3}
    (hK : firstMax (componentsList m) = some keep) {x z : Vec3}
    (hx : x ∈ keep) (hz : z ∈ keep) (h : adjB m x z = true) :
    adjB (fillSmallests m) x z = true := by
  have hsz : (fillSmallests m).size = m.size := by
    unfold fillSmallests
    rw [hK]
  rw [adjB, decide_eq_true_eq] at h ⊢
  obtain ⟨d, hd⟩ := h
  refine ⟨d, ?_⟩
  rcases hd with ⟨hy, ho⟩ | ⟨hy, ho⟩
  · refine Or.inl ⟨hy, ?_⟩
    rw [edgeOpenB, Bool.and_eq_true, Bool.and_eq_true] at ho
    rw [edgeOpenB, fillSmallests_edges hK, hsz]
    simp only [Bool.and_eq_true]
    refine ⟨⟨⟨⟨ho.1.1, decide_eq_true hx⟩, ?_⟩, ho.1.2⟩, ho.2⟩
    rw [← hy]
    exact decide_eq_true hz
  · refine Or.inr ⟨hy, ?_⟩
    rw [edgeOpenB, Bool.and_eq_true, Bool.and_eq_true] at ho
    rw [edgeOpenB, fillSmallests_edges hK, hsz]
    simp only [Bool.and_eq_true]
    refine ⟨⟨⟨⟨ho.1.1, decide_eq_true hz⟩, ?_⟩, ho.1.2⟩, ho.2⟩
    rw [← hy]
    exact decide_eq_true hx

/-- Every cell outside the retained component is sealed. -/
theorem degree_fillSmallests_not_keep {m : Maze} {keep : List Vec3}
    (hK : firstMax (componentsList m) = some keep) {c : Vec3}
    (hc : c ∉ keep) : degreeB (fillSmallests m) c = 0 := by
  rw [degreeB]
  rw [List.length_eq_zero]
  refine List.filter_eq_nil.mpr ?_
  intro y _
  rw [Bool.not_eq_true]
  rw [adjB, decide_eq_false_iff_not]
  rintro ⟨d, ⟨_, ho⟩ | ⟨hx, ho⟩⟩
  · rw [edgeOpenB, fillSmallests_edges hK] at ho
    simp only [decide_eq_false hc, Bool.and_false, Bool.false_and,
      Bool.false_eq_true] at ho
  · rw [edgeOpenB, fillSmallests_edges hK] at ho
    simp only at ho
    rw [← hx] at ho
    simp only [decide_eq_false hc, Bool.and_false, Bool.false_and,
      Bool.false_eq_true] at ho

/-- Every inside-connectivity path from the retained component's root
survives the fill. -/
theorem insideConn_fillSmallests {m : Maze} {keep : List Vec3} {r : Vec3}
    (hK : firstMax (componentsList m) = some keep)
    (hr : r ∈ insideCells m)
    (hroot : keep = reachList (insideAdj m) (insideCells m) r) :
    ∀ {x : Vec3}, InsideConn m r x → Connected (fillSmallests m) r x := by
  intro x h
  induction h with
  | refl => exact Relation.ReflTransGen.refl
  | @tail b c' hprev hstep ih =>
      have hbIn : b ∈ insideCells m := by
        rcases Relation.ReflTransGen.cases_tail hprev with heq | ⟨u, _, hu⟩
        · rw [heq]
          exact hr
        · exact insideAdj_mem hu
      have hb : b ∈ keep := by
        rw [hroot]
        exact (mem_reachList_iff nodup_insideCells
          (fun u w h => insideAdj_mem h) hr b).mpr ⟨hbIn, hprev⟩
      have hcIn : c' ∈ insideCells m := insideAdj_mem hstep
      have hc : c' ∈ keep := by
        rw [hroot]
        exact (mem_reachList_iff nodup_insideCells
          (fun u w h => insideAdj_mem h) hr c').mpr
            ⟨hcIn, hprev.tail hstep⟩
      have hadj : adjB m b c' = true := by
        rw [insideAdj, Bool.and_eq_true, Bool.and_eq_true] at hstep
        exact hstep.1.1
      exact ih.tail (adjB_fillSmallests hK hb hc hadj)

/-- C4: after `fill_smallests` runs on a carved maze (any maze with at
least one inside cell), the non-solid cells are exactly the retained
component `keep` and are pairwise connected (one component); the
components enumerated at carving time are precisely the inside
connectivity classes and cover all inside cells; `keep` is one of them,
strictly larger than every component scanned before it and at least as
large as every later one (largest, first encountered on ties); and every
other component's cells are marked solid with all edges closed. -/
theorem claim_C4 (m : Maze) (hne : insideCells m ≠ []) :
    ∃ keep, firstMax (componentsList m) = some keep ∧
      keep ≠ [] ∧
      (∀ c, ((fillSmallests m).solid c = false ∧ inLat m.size c = true) ↔
        c ∈ keep) ∧
      (∀ x ∈ keep, ∀ y ∈ keep, Connected (fillSmallests m) x y) ∧
      (∀ comp ∈ componentsList m, ∃ r ∈ insideCells m, ∀ c,
        c ∈ comp ↔ (c ∈ insideCells m ∧ InsideConn m r c)) ∧
      (∀ c ∈ insideCells m, ∃ comp ∈ componentsList m, c ∈ comp) ∧
      (∃ l1 l2, componentsList m = l1 ++ keep :: l2 ∧
        (∀ comp ∈ l1, comp.length < keep.length) ∧
        (∀ comp ∈ l2, comp.length ≤ keep.length)) ∧
      (∀ comp ∈ componentsList m, comp ≠ keep → ∀ c ∈ comp,
        (fillSmallests m).solid c = true ∧
          degreeB (fillSmallests m) c = 0) := by
  obtain ⟨c0, hc0⟩ := List.exists_mem_of_ne_nil _ hne
  obtain ⟨comp0, hcomp0, _⟩ := compFold_covers (insideCells m) [] c0 hc0
  have hCne : componentsList m ≠ [] := by
    intro h
    rw [componentsList] at h
    rw [h] at hcomp0
    exact absurd hcomp0 (List.not_mem_nil comp0)
  obtain ⟨keep, hK⟩ : ∃ keep, firstMax (componentsList m) = some keep := by
    rcases hF : componentsList m with _ | ⟨c, rest⟩
    · exact absurd hF hCne
    · exact ⟨_, by rw [firstMax]⟩
  obtain ⟨hroots, hdis⟩ := compFold_ok (m := m) (insideCells m) []
    (fun x h => h)
    ⟨fun comp h => absurd h (List.not_mem_nil comp), List.Pairwise.nil⟩
  obtain ⟨l1, l2, hdec, hl1, hl2⟩ := firstMax_spec hK
  have hkeepMem : keep ∈ componentsList m := by
    rw [hdec]
    exact List.mem_append_right _ (List.mem_cons_self _ _)
  obtain ⟨r, hr, hroot⟩ := hroots keep hkeepMem
  have hchar : ∀ x, x ∈ keep ↔ (x ∈ insideCells m ∧ InsideConn m r x) := by
    intro x
    rw [hroot]
    exact mem_reachList_iff nodup_insideCells
      (fun u w h => insideAdj_mem h) hr x
  refine ⟨keep, hK, ?_, ?_, ?_, ?_, ?_, ⟨l1, l2, hdec, hl1, hl2⟩, ?_⟩
  · intro hnil
    have hself : r ∈ keep := by
      rw [hroot]
      exact self_mem_reachList
    rw [hnil] at hself
    exact absurd hself (List.not_mem_nil r)
  · intro c
    rw [fillSmallests_solid hK]
    simp only [Bool.or_eq_false_iff, Bool.and_eq_false_iff]
    constructor
    · rintro ⟨⟨hsol, hrest⟩, hin⟩
      rcases hrest with hbad | hnk
      · rw [hin] at hbad
        exact absurd hbad (by simp)
      · rw [Bool.not_eq_false'] at hnk
        exact decide_eq_true_eq.mp hnk
    · intro hmem
      have hcIn := (hchar c).mp hmem |>.1
      have hf := List.mem_filter.mp hcIn
      have hsol : m.solid c = false := by
        have := hf.2
        rwa [Bool.not_eq_true'] at this
      refine ⟨⟨hsol, Or.inr ?_⟩, mem_cells.mp hf.1⟩
      rw [Bool.not_eq_false']
      exact decide_eq_true hmem
  · intro x hx y hy
    have hcx : InsideConn m r x := ((hchar x).mp hx).2
    have hcy : InsideConn m r y := ((hchar y).mp hy).2
    exact Relation.ReflTransGen.trans
      (connected_symm (insideConn_fillSmallests hK hr hroot hcx))
      (insideConn_fillSmallests hK hr hroot hcy)
  · intro comp hcomp
    obtain ⟨r', hr', rfl⟩ := hroots comp hcomp
    exact ⟨r', hr', fun c => mem_reachList_iff nodup_insideCells
      (fun u w h => insideAdj_mem h) hr' c⟩
  · intro c hc
    exact compFold_covers _ [] c hc
  · intro comp hcomp hnk c hc
    have hsym : Symmetric (fun c1 c2 : List Vec3 => ∀ x, ¬(x ∈ c1 ∧ x ∈ c2)) :=
      fun a b hab x hx => hab x ⟨hx.2, hx.1⟩
    have hcnot : c ∉ keep := by
      intro hck
      exact hdis.forall hsym hcomp hkeepMem hnk c ⟨hc, hck⟩
    refine ⟨?_, degree_fillSmallests_not_keep hK hcnot⟩
    rw [fillSmallests_solid hK]
    obtain ⟨r', hr', rfl⟩ := hroots comp hcomp
    have hcIn : c ∈ insideCells m := reachList_subset hr' hc
    have hinL : inLat m.size c = true := mem_cells.mp (List.mem_filter.mp hcIn).1
    simp only [hinL, decide_eq_false hcnot, Bool.not_false, Bool.and_true,
      Bool.true_and, Bool.or_true]

theorem claim_C4_witness :
    insideCells mazeA ≠ [] ∧
    (∃ keep, firstMax (componentsList mazeA) = some keep ∧
      keep ≠ [] ∧
      (∀ c, ((fillSmallests mazeA).solid c = false ∧
        inLat mazeA.size c = true) ↔ c ∈ keep) ∧
      (∀ x ∈ keep, ∀ y ∈ keep, Connected (fillSmallests mazeA) x y) ∧
      (∀ comp ∈ componentsList mazeA, ∃ r ∈ insideCells mazeA, ∀ c,
        c ∈ comp ↔ (c ∈ insideCells mazeA ∧ InsideConn mazeA r c)) ∧
      (∀ c ∈ insideCells mazeA, ∃ comp ∈ componentsList mazeA, c ∈ comp) ∧
      (∃ l1 l2, componentsList mazeA = l1 ++ keep :: l2 ∧
        (∀ comp ∈ l1, comp.length < keep.length) ∧
        (∀ comp ∈ l2, comp.length ≤ keep.length)) ∧
      (∀ comp ∈ componentsList mazeA, comp ≠ keep → ∀ c ∈ comp,
        (fillSmallests mazeA).solid c = true ∧
          degreeB (fillSmallests mazeA) c = 0)) :=
  ⟨by decide, claim_C4 mazeA (by decide)⟩

/-!
Reducer (`Maze::reduce`).  The spec leaves the exact geometry open
("treat as a boundary-simplification pass and validate against the
never-disconnects invariant"); the model trims degree-1 stubs lying on
the outermost lattice layer, which realizes a thin-outer-layer
simplification satisfying that invariant.
-/

/-- A lattice cell on the outermost boundary layer. -/
def onBoundary (s : ℤ) (c : Vec3) : Bool :=
  inLat s c && decide (c.1 = 0 ∨ c.1 = s - 1 ∨ c.2.1 = 0 ∨ c.2.1 = s - 1 ∨
    c.2.2 = 0 ∨ c.2.2 = s - 1)

/-- The degree-1 cells of the outermost layer. -/
def boundaryStubs (m : Maze) : List Vec3 :=
  (cells m.size).filter
    (fun c => onBoundary m.size c && decide (degreeB m c = 1))

/-- Modelled from the spec: one structural simplification pass of
`Maze::reduce` (maze module not under `src/`): trim the thin outer layer
of generated detail by sealing its dead-end stubs. -/
def reducePass (m : Maze) : Maze := closeIncident m (boundaryStubs m)

/-- Modelled from the spec: `Maze::reduce(n)` applies `n` simplification
passes; `reduce(0)` is a no-op. -/
def reduce (m : Maze) : ℕ → Maze
  | 0 => m
  | n + 1 => reduce (reducePass m) n

/-- C8: `reduce(0)` leaves the maze's open/closed edge state unchanged
(it is the identity), `reduce(1)` — the form invoked by the pipeline —
is exactly one simplification pass, and a pass never introduces new
disconnections: any two cells that are not among the trimmed boundary
stubs and are connected before the pass remain connected after it. -/
theorem claim_C8 (m : Maze) (x y : Vec3) (hx : x ∉ boundaryStubs m)
    (hy : y ∉ boundaryStubs m) (h : Connected m x y) :
    reduce m 0 = m ∧ reduce m 1 = reducePass m ∧
    Connected (reducePass m) x y := by
  refine ⟨rfl, rfl, ?_⟩
  refine closeIncident_preserves_conn ?_ hx hy h
  intro c hc
  have hmem := (List.mem_filter.mp hc).2
  rw [Bool.and_eq_true, decide_eq_true_eq] at hmem
  exact hmem.2

theorem claim_C8_witness :
    ((0 : ℤ), (0 : ℤ), (0 : ℤ)) ∉ boundaryStubs mazeA ∧
    (reduce mazeA 0 = mazeA ∧ reduce mazeA 1 = reducePass mazeA ∧
      Connected (reducePass mazeA) ((0 : ℤ), (0 : ℤ), (0 : ℤ))
        ((0 : ℤ), (0 : ℤ), (0 : ℤ))) :=
  ⟨by decide, claim_C8 mazeA _ _ (by decide) (by decide)
    Relation.ReflTransGen.refl⟩

/-!
`LevelBuilder::build` (src/level.rs lines 4-67).  The builder struct and
the pipeline order are embedded directly from the source; the collaborator
emitters (`maze::build_colors`, `tile::build_maze`, `tube::build_tubes`,
`util::to_world`, not under `src/`) are modelled from the spec as
deterministic functions of the finished maze.  `f64`/`f32` quantities
(`percent`, `unit`) are modelled as rationals.
-/

/-- The `LevelBuilder` configuration, embedded from `src/level.rs`
lines 4-12 (field for field, including the never-read `columns`). -/
structure LevelBuilder where
  half_size : ℕ
  x_shift : Bool
  y_shift : Bool
  z_shift : Bool
  percent : ℚ
  columns : ℕ
  unit : ℚ

/-- Modelled from the spec: `util::to_world` (not under `src/`) maps a
lattice coordinate to world space by uniform scaling with `unit`. -/
def toWorld (v : Vec3) (unit : ℚ) : ℚ × ℚ × ℚ :=
  (unit * (v.1 : ℚ), unit * (v.2.1 : ℚ), unit * (v.2.2 : ℚ))

/-- Uniform scaling of a world-space point. -/
def scaleQ (u : ℚ) (p : ℚ × ℚ × ℚ) : ℚ × ℚ × ℚ :=
  (u * p.1, u * p.2.1, u * p.2.2)

/-- Modelled from the spec: `Maze::build_colors` (maze module not under
`src/`) walks the final edge state and emits one (wall position, color)
pair per solid boundary segment; the color scheme itself is not
observable at the interface, so it is modelled as a constant. -/
def buildColors (m : Maze) : List (Vec3 × ℕ) :=
  ((allEdges m.size).filter (fun e => !edgeOpenB m e.1 e.2)).map
    (fun e => (e.1, 0))

/-- A floor tile (position, width, height), from the spec's derived
outputs. -/
structure Tile where
  position : ℚ × ℚ × ℚ
  width : ℚ
  height : ℚ

/-- A tube connector transform, from the spec's derived outputs. -/
structure Tube where
  position : ℚ × ℚ × ℚ

/-- Modelled from the spec: `tile::build_maze` (not under `src/`)
derives floor tiles from the finished maze at unit scale. -/
def tileBuildMaze (m : Maze) : List Tile :=
  ((allEdges m.size).filter (fun e => edgeOpenB m e.1 e.2)).map
    (fun e => { position := toWorld e.1 1, width := 1, height := 1 })

/-- Modelled from the spec: `tube::build_tubes` (not under `src/`)
derives tube connector transforms from the finished maze at unit
scale. -/
def tubeBuildTubes (k : ℕ) (m : Maze) : List Tube :=
  ((allEdges m.size).filter (fun e => edgeOpenB m e.1 e.2)).map
    (fun e => { position := toWorld (e.1 + delta e.2) 1 })

/-- `player_distance` from `src/level.rs` line 60. -/
def playerDistance : ℤ := 3

/-- Everything `LevelBuilder::build` hands to the world: the maze, the
wall list, the tile list, the tube list and the player spawn. -/
structure BuildOut where
  maze : Maze
  walls : List ((ℚ × ℚ × ℚ) × ℕ)
  tiles : List Tile
  tubes : List Tube
  playerPos : ℚ × ℚ × ℚ

/-- The maze-construction pipeline of `LevelBuilder::build`
(src/level.rs lines 18-37): size `2·half_size + 1` per axis, the jitter
vector from the shift flags, then
`new_kruskal → reduce(1) → circle → fill_smallests →
while fill_dead_corridors() {} → reduce(1)`. -/
def buildMazePipeline (b : LevelBuilder) (rng : Rng) : Maze :=
  let size : ℤ := 2 * b.half_size + 1
  let bug : Vec3 := (if b.x_shift then 1 else 0, if b.y_shift then 1 else 0,
    if b.z_shift then 1 else 0)
  let m0 := newKruskal size b.percent bug rng
  let m1 := reduce m0 1
  let m2 := circle m1
  let m3 := fillSmallests m2
  let m4 := fillFix m3
  reduce m4 1

/-- Embedded from `LevelBuilder::build` (src/level.rs lines 15-67):
build the maze, emit scaled walls, tiles and tubes, and spawn the player
at the world image of lattice coordinate
`(-player_distance, half_size + 1, half_size + 1)`. -/
def build (b : LevelBuilder) (rng : Rng) : BuildOut :=
  let maze := buildMazePipeline b rng
  { maze := maze
    walls := (buildColors maze).map (fun wc => (toWorld wc.1 b.unit, wc.2))
    tiles := (tileBuildMaze maze).map (fun t =>
      { position := scaleQ b.unit t.position
        width := b.unit * t.width
        height := b.unit * t.height })
    tubes := (tubeBuildTubes 0 maze).map (fun t =>
      { position := scaleQ b.unit t.position })
    playerPos := toWorld (-playerDistance, (b.half_size : ℤ) + 1,
      (b.half_size : ℤ) + 1) b.unit }

/-- C6: determinism of the full generation pipeline: for a fixed
half-size, jitter configuration and percent, two runs fed extensionally
equal random streams (the model of a fixed seed) produce bit-identical
open/closed edge states. -/
theorem claim_C6 (b : LevelBuilder) (rng1 rng2 : Rng)
    (hk : ∀ e, rng1.key e = rng2.key e)
    (hdr : ∀ e, rng1.draw e = rng2.draw e) :
    ∀ c d, (buildMazePipeline b rng1).edges c d =
      (buildMazePipeline b rng2).edges c d := by
  have heq : rng1 = rng2 := by
    obtain ⟨k1, d1⟩ := rng1
    obtain ⟨k2, d2⟩ := rng2
    simp only at hk hdr
    rw [Rng.mk.injEq]
    exact ⟨funext hk, funext hdr⟩
  rw [heq]
  intro c d
  rfl

/-- A fixed concrete random source. -/
def rngA : Rng := ⟨fun _ => 0, fun _ => 0⟩

/-- A fixed concrete builder configuration, parameterized by the unused
column count. -/
def builderA (cols : ℕ) : LevelBuilder := ⟨1, false, false, false, 0, cols, 1⟩

theorem claim_C6_witness :
    (∀ e : MEdge, rngA.key e = rngA.key e) ∧
    (∀ c d, (buildMazePipeline (builderA 0) rngA).edges c d =
      (buildMazePipeline (builderA 0) rngA).edges c d) :=
  ⟨fun e => rfl,
    claim_C6 (builderA 0) rngA rngA (fun e => rfl) (fun e => rfl)⟩

/-- C9: the player spawn emitted by `LevelBuilder::build` is the world
image, scaled by `unit`, of the lattice coordinate
`(-player_distance, half_size + 1, half_size + 1)` with
`player_distance = 3`. -/
theorem claim_C9 (b : LevelBuilder) (rng : Rng) :
    playerDistance = 3 ∧
    (build b rng).playerPos =
      (b.unit * (-3 : ℚ), b.unit * ((b.half_size : ℚ) + 1),
        b.unit * ((b.half_size : ℚ) + 1)) := by
  refine ⟨rfl, ?_⟩
  show toWorld (-playerDistance, (b.half_size : ℤ) + 1,
    (b.half_size : ℤ) + 1) b.unit = _
  rw [toWorld, playerDistance]
  norm_num

/-- C10: the `columns` field of `LevelBuilder` has no effect on the
output: two configurations differing only in `columns` produce the same
maze edge state, wall list, tile list, tube list and player spawn, given
the same random stream. -/
theorem claim_C10 (b1 b2 : LevelBuilder) (rng : Rng)
    (hhs : b1.half_size = b2.half_size) (hx : b1.x_shift = b2.x_shift)
    (hy : b1.y_shift = b2.y_shift) (hz : b1.z_shift = b2.z_shift)
    (hp : b1.percent = b2.percent) (hu : b1.unit = b2.unit) :
    build b1 rng = build b2 rng := by
  obtain ⟨h1, x1, y1, z1, p1, c1, u1⟩ := b1
  obtain ⟨h2, x2, y2, z2, p2, c2, u2⟩ := b2
  simp only at hhs hx hy hz hp hu
  subst hhs
  subst hx
  subst hy
  subst hz
  subst hp
  subst hu
  rfl

theorem claim_C10_witness :
    (builderA 0).half_size = (builderA 5).half_size ∧
    build (builderA 0) rngA = build (builderA 5) rngA :=
  ⟨rfl, claim_C10 (builderA 0) (builderA 5) rngA rfl rfl rfl rfl rfl rfl⟩

/-- C7: the extra-connection parameter `percent` is a fraction with
`1.0` meaning full density: with per-edge draws in `[0, 1)`, at
`percent = 1` every candidate edge — in particular every closed non-tree
candidate — ends up open after the spanning and loop passes, and at
`percent = 0` no non-tree edge is opened, leaving exactly
`|cells| - 1` open edges. -/
theorem claim_C7 (h : ℕ) (hh : 1 ≤ h) (bug : Vec3) (rng : Rng)
    (hdraw : ∀ e, 0 ≤ rng.draw e ∧ rng.draw e < 1) :
    (∀ e ∈ allEdges (2 * h + 1 : ℤ),
      (newKruskal (2 * h + 1 : ℤ) 1 bug rng).edges e.1 e.2 = true) ∧
    openCount (newKruskal (2 * h + 1 : ℤ) 0 bug rng) =
      (cells (2 * h + 1 : ℤ)).length - 1 := by
  constructor
  · intro e he
    have hin := mem_allEdges.mp he
    simp only [newKruskal, Bool.or_eq_true, Bool.and_eq_true,
      decide_eq_true_eq, Bool.not_eq_true', decide_eq_false_iff_not]
    by_cases hmem : (e.1, e.2) ∈ kruskalTree (2 * h + 1 : ℤ) bug rng
    · exact Or.inl hmem
    · refine Or.inr ⟨⟨⟨hin.1, hin.2⟩, hmem⟩, ?_⟩
      have hde := (hdraw (e.1, e.2)).2
      rw [Prod.mk.eta] at hde
      exact hde
  · have hextra : extraEdges (2 * h + 1 : ℤ) 0 bug rng = 0 := by
      rw [extraEdges, List.length_eq_zero]
      refine List.filter_eq_nil.mpr ?_
      intro e _
      rw [Bool.not_eq_true, Bool.and_eq_false_iff]
      right
      rw [decide_eq_false_iff_not]
      intro hlt
      exact absurd hlt (not_lt.mpr (hdraw e).1)
    have hs : (1 : ℤ) ≤ 2 * h + 1 := by omega
    have hlen := kruskalTree_length hs bug rng
    rw [newKruskal_openCount, hextra]
    omega

theorem claim_C7_witness :
    1 ≤ 1 ∧ (∀ e : MEdge, 0 ≤ rngA.draw e ∧ rngA.draw e < 1) ∧
    ((∀ e ∈ allEdges (2 * 1 + 1 : ℤ),
      (newKruskal (2 * 1 + 1 : ℤ) 1 (0, 0, 0) rngA).edges e.1 e.2 = true) ∧
    openCount (newKruskal (2 * 1 + 1 : ℤ) 0 (0, 0, 0) rngA) =
      (cells (2 * 1 + 1 : ℤ)).length - 1) :=
  ⟨le_refl 1, fun e => ⟨le_refl 0, show (0 : ℚ) < 1 by norm_num⟩,
    claim_C7 1 (le_refl 1) (0, 0, 0) rngA
      (fun e => ⟨le_refl 0, show (0 : ℚ) < 1 by norm_num⟩)⟩

end Sese
